import Mathlib

/-!
Verification of the AI-assisted web-app scaffolding tool (response extraction,
project classification, file-tree materialization, diagram normalization,
typing simulation, open-editor state, chat request handling, project-session
creation).

Strings are modelled as `List Char` (`Str`), mirroring JavaScript strings
character by character.  Regex-driven routines from the source are embedded as
explicit left-to-right scanners that implement the backtracking semantics of
the concrete regular expressions appearing in the source.  Machine-level
effects (React state updates, timers) are embedded as explicit state-passing
transition functions.
-/

set_option maxRecDepth 20000

namespace AppSpec

/-- JavaScript strings, modelled as lists of characters. -/
abbrev Str := List Char

/-- Conversion from Lean string literals. -/
def strOf (s : String) : Str := s.toList

/-- JavaScript whitespace (`\s`, and the set used by `String.prototype.trim`),
restricted to the ASCII range that the repository's data can contain. -/
def isWs (c : Char) : Bool :=
  c = ' ' || c = '\t' || c = '\n' || c = '\x0d' || c = '\x0b' || c = '\x0c'

/-- `String.prototype.trim`: drop whitespace from both ends. -/
def trimStr (s : Str) : Str :=
  ((s.dropWhile isWs).reverse.dropWhile isWs).reverse

/-- `haystack.includes(needle)` on JavaScript strings. -/
def hasSub (hay needle : Str) : Bool :=
  hay.tails.any (fun t => needle.isPrefixOf t)

/-- `s.startsWith(p)` on JavaScript strings. -/
def startsWith (s p : Str) : Bool := p.isPrefixOf s

end AppSpec

namespace AppSpec

/-! ## Project generator (`src/lib/project-generator.ts`) -/

/-- `ProjectConfig.type`. -/
inductive PType where
  | frontend | backend | fullstack
deriving DecidableEq, Repr

/-- `ProjectConfig.language`. -/
inductive PLanguage where
  | javascript | typescript
deriving DecidableEq, Repr

/-- `ProjectConfig.frontend` sub-configuration. -/
structure FrontendConfig where
  framework : Str
  styling : Str
deriving DecidableEq, Repr

/-- `ProjectConfig.backend` sub-configuration. -/
structure BackendConfig where
  framework : Str
  database : Option Str
deriving DecidableEq, Repr

/-- `ProjectConfig` from `src/lib/project-generator.ts`. -/
structure ProjectConfig where
  type : PType
  language : PLanguage
  frontend : Option FrontendConfig
  backend : Option BackendConfig
  name : Str
  description : Option Str
deriving DecidableEq, Repr

/-- `ProjectSession` from `src/lib/project-generator.ts`.  `createdAt` is a
wall-clock timestamp irrelevant to the verified properties and is omitted. -/
structure ProjectSession where
  id : Str
  config : ProjectConfig
  terminalPath : Str
deriving DecidableEq, Repr

/-- The terminal path derived from a fresh session id
(`/private/tmp/term-users/${sessionId}/`). -/
def terminalPathOf (sessionId : Str) : Str :=
  strOf "/private/tmp/term-users/" ++ sessionId ++ strOf "/"

/-- `ProjectGenerator.createSession`.  The fresh `uuidv4()` session id is an
explicit argument; validation and session construction follow the source. -/
def createSession (config : ProjectConfig) (sessionId : Str) :
    Except Str ProjectSession :=
  if (config.type = PType.frontend || config.type = PType.fullstack) &&
      config.frontend.isNone then
    .error (strOf "Frontend configuration is required for frontend or fullstack projects")
  else if (config.type = PType.backend || config.type = PType.fullstack) &&
      config.backend.isNone then
    .error (strOf "Backend configuration is required for backend or fullstack projects")
  else
    .ok { id := sessionId, config := config,
          terminalPath := terminalPathOf sessionId }

/-! ## Diagram normalizer -/

/-- The pre-render normalization step of `FlowPanel.renderMermaid` in
`src/components/workspace/panels/CodePanel.tsx` (lines 1561–1566): when the
trimmed code starts with neither `graph` nor `flowchart`, prefix
`flowchart TD` and a newline. -/
def renderMermaidNormalize (code : Str) : Str :=
  if ¬ startsWith (trimStr code) (strOf "graph") &&
      ¬ startsWith (trimStr code) (strOf "flowchart") then
    strOf "flowchart TD\n" ++ code
  else
    code

/-- Outcome of the `FlowPanel.renderMermaid` variant in `src/unnamed/part_002`:
empty or whitespace-only input yields the neutral placeholder; any other input
is handed to the mermaid renderer unmodified. -/
inductive FlowRenderOutcome where
  | placeholder
  | render (code : Str)
deriving DecidableEq, Repr

/-- `FlowPanel.renderMermaid` from `src/unnamed/part_002` (lines 75–110),
abstracted to the decision it makes before delegating to the external mermaid
library. -/
def renderMermaidPart002 (code : Str) : FlowRenderOutcome :=
  if code = [] || trimStr code = [] then
    .placeholder
  else
    .render code

end AppSpec

namespace AppSpec

/-! ## JSON values and `JSON.parse`

`JSON.parse` / `JSON.stringify` are host-language built-ins used by the
source; they are embedded below.  Numbers are stored by their lexeme, which
is sufficient because the verified properties never compare distinct numeric
spellings. -/

inductive Json where
  | null
  | bool (b : Bool)
  | num (lexeme : Str)
  | str (s : Str)
  | arr (elems : List Json)
  | obj (fields : List (Str × Json))
deriving Repr

/-- Hex digit value, for `\uXXXX` string escapes. -/
def hexVal (c : Char) : Option Nat :=
  if '0' ≤ c ∧ c ≤ '9' then some (c.toNat - '0'.toNat)
  else if 'a' ≤ c ∧ c ≤ 'f' then some (c.toNat - 'a'.toNat + 10)
  else if 'A' ≤ c ∧ c ≤ 'F' then some (c.toNat - 'A'.toNat + 10)
  else none

/-- Parse the body of a JSON string literal (after the opening quote),
returning the decoded characters and the remainder after the closing quote. -/
def parseStringBody : Str → Option (Str × Str)
  | [] => none
  | '"' :: rest => some ([], rest)
  | '\\' :: 'u' :: h1 :: h2 :: h3 :: h4 :: rest => do
    let v1 ← hexVal h1
    let v2 ← hexVal h2
    let v3 ← hexVal h3
    let v4 ← hexVal h4
    let (s, r) ← parseStringBody rest
    some (Char.ofNat (((v1 * 16 + v2) * 16 + v3) * 16 + v4) :: s, r)
  | '\\' :: e :: rest => do
    let c ← match e with
      | '"' => some '"'
      | '\\' => some '\\'
      | '/' => some '/'
      | 'b' => some '\x08'
      | 'f' => some '\x0c'
      | 'n' => some '\n'
      | 'r' => some '\x0d'
      | 't' => some '\t'
      | _ => none
    let (s, r) ← parseStringBody rest
    some (c :: s, r)
  | c :: rest =>
    if c.toNat < 0x20 then none
    else do
      let (s, r) ← parseStringBody rest
      some (c :: s, r)

/-- Digits of a JSON number component. -/
def takeDigits (s : Str) : Str × Str := (s.takeWhile Char.isDigit, s.dropWhile Char.isDigit)

/-- Parse a JSON number (strict grammar: optional minus, `0` or a nonzero-led
integer part, optional fraction, optional exponent), returning its lexeme. -/
def parseNumber (s : Str) : Option (Str × Str) := do
  let (sign, s1) := match s with
    | '-' :: r => (['-'], r)
    | r => (([] : Str), r)
  let (intPart, s2) ← match s1 with
    | '0' :: r => some ((['0'] : Str), r)
    | c :: r =>
      if c.isDigit then
        let (ds, r') := takeDigits r
        some (c :: ds, r')
      else none
    | [] => none
  let (frac, s3) ← match s2 with
    | '.' :: r =>
      let (ds, r') := takeDigits r
      if ds = [] then none else some ('.' :: ds, r')
    | r => some (([] : Str), r)
  let (expPart, s4) ← match s3 with
    | c :: r =>
      if c = 'e' ∨ c = 'E' then
        let (es, r') := match r with
          | '+' :: r' => (['+'], r')
          | '-' :: r' => (['-'], r')
          | r' => (([] : Str), r')
        let (ds, r'') := takeDigits r'
        if ds = [] then none else some (c :: es ++ ds, r'')
      else some (([] : Str), c :: r)
    | [] => some (([] : Str), [])
  some (sign ++ intPart ++ frac ++ expPart, s4)

/-- Drop leading JSON whitespace. -/
def skipWs (s : Str) : Str := s.dropWhile isWs

mutual

/-- Recursive-descent JSON value parser; `fuel` bounds nesting depth. -/
def parseValue : Nat → Str → Option (Json × Str)
  | 0, _ => none
  | fuel + 1, s =>
    match skipWs s with
    | '{' :: rest => parseObjRest fuel rest
    | '[' :: rest => parseArrRest fuel rest
    | '"' :: rest => (parseStringBody rest).map (fun p => (Json.str p.1, p.2))
    | 'n' :: 'u' :: 'l' :: 'l' :: rest => some (Json.null, rest)
    | 't' :: 'r' :: 'u' :: 'e' :: rest => some (Json.bool true, rest)
    | 'f' :: 'a' :: 'l' :: 's' :: 'e' :: rest => some (Json.bool false, rest)
    | s' => (parseNumber s').map (fun p => (Json.num p.1, p.2))

/-- Parse the interior of an object after `{`. -/
def parseObjRest : Nat → Str → Option (Json × Str)
  | 0, _ => none
  | fuel + 1, s =>
    match skipWs s with
    | '}' :: rest => some (Json.obj [], rest)
    | _ => parseObjFields fuel s []

/-- Parse `"key": value (, "key": value)* }` object fields. -/
def parseObjFields : Nat → Str → List (Str × Json) → Option (Json × Str)
  | 0, _, _ => none
  | fuel + 1, s, acc =>
    match skipWs s with
    | '"' :: rest => do
      let (key, r1) ← parseStringBody rest
      match skipWs r1 with
      | ':' :: r2 => do
        let (v, r3) ← parseValue fuel r2
        match skipWs r3 with
        | ',' :: r4 => parseObjFields fuel r4 (acc ++ [(key, v)])
        | '}' :: r4 => some (Json.obj (acc ++ [(key, v)]), r4)
        | _ => none
      | _ => none
    | _ => none

/-- Parse the interior of an array after `[`. -/
def parseArrRest : Nat → Str → Option (Json × Str)
  | 0, _ => none
  | fuel + 1, s =>
    match skipWs s with
    | ']' :: rest => some (Json.arr [], rest)
    | _ => parseArrElems fuel s []

/-- Parse `value (, value)* ]` array elements. -/
def parseArrElems : Nat → Str → List Json → Option (Json × Str)
  | 0, _, _ => none
  | fuel + 1, s, acc => do
    let (v, r1) ← parseValue fuel s
    match skipWs r1 with
    | ',' :: r2 => parseArrElems fuel r2 (acc ++ [v])
    | ']' :: r2 => some (Json.arr (acc ++ [v]), r2)
    | _ => none

end

/-- `JSON.parse`: parse one value and require only whitespace to follow (the
fuel strictly exceeds the number of grammar productions any input of this
length can trigger). -/
def jsonParse (s : Str) : Option Json :=
  match parseValue (2 * s.length + 4) s with
  | some (v, rest) => if skipWs rest = [] then some v else none
  | none => none

/-- Escape one character for a JSON string literal. -/
def escapeJsonChar (c : Char) : Str :=
  if c = '"' then ['\\', '"']
  else if c = '\\' then ['\\', '\\']
  else if c = '\n' then ['\\', 'n']
  else if c = '\t' then ['\\', 't']
  else if c = '\x0d' then ['\\', 'r']
  else if c = '\x08' then ['\\', 'b']
  else if c = '\x0c' then ['\\', 'f']
  else [c]

/-- Render a JSON string literal. -/
def quoteJson (s : Str) : Str :=
  '"' :: (s.flatMap escapeJsonChar) ++ ['"']

/-- Indentation of `n` two-space levels, as produced by
`JSON.stringify(v, null, 2)`. -/
def indentOf (n : Nat) : Str := List.replicate (2 * n) ' '

mutual

/-- `JSON.stringify(v, null, 2)`; `fuel` bounds nesting depth (callers pass a
bound exceeding the value's depth, so the `0` case is never reached on real
data). -/
def stringifyVal : Nat → Nat → Json → Str
  | 0, _, _ => []
  | _ + 1, _, Json.null => strOf "null"
  | _ + 1, _, Json.bool true => strOf "true"
  | _ + 1, _, Json.bool false => strOf "false"
  | _ + 1, _, Json.num lx => lx
  | _ + 1, _, Json.str s => quoteJson s
  | _ + 1, _, Json.arr [] => strOf "[]"
  | fuel + 1, lvl, Json.arr (e :: es) =>
    '[' :: '\n' :: stringifyElems fuel (lvl + 1) (e :: es) ++
      '\n' :: indentOf lvl ++ [']']
  | _ + 1, _, Json.obj [] => strOf "\x7b\x7d"
  | fuel + 1, lvl, Json.obj (f :: fs) =>
    '\x7b' :: '\n' :: stringifyFields fuel (lvl + 1) (f :: fs) ++
      '\n' :: indentOf lvl ++ ['\x7d']

/-- Array elements, comma-and-newline separated, each indented. -/
def stringifyElems : Nat → Nat → List Json → Str
  | 0, _, _ => []
  | _ + 1, _, [] => []
  | fuel + 1, lvl, [e] => indentOf lvl ++ stringifyVal fuel lvl e
  | fuel + 1, lvl, e :: e2 :: es =>
    indentOf lvl ++ stringifyVal fuel lvl e ++ ',' :: '\n' ::
      stringifyElems fuel lvl (e2 :: es)

/-- Object fields, comma-and-newline separated, each indented. -/
def stringifyFields : Nat → Nat → List (Str × Json) → Str
  | 0, _, _ => []
  | _ + 1, _, [] => []
  | fuel + 1, lvl, [(k, v)] =>
    indentOf lvl ++ quoteJson k ++ ':' :: ' ' :: stringifyVal fuel lvl v
  | fuel + 1, lvl, (k, v) :: f2 :: fs =>
    indentOf lvl ++ quoteJson k ++ ':' :: ' ' :: stringifyVal fuel lvl v ++
      ',' :: '\n' :: stringifyFields fuel lvl (f2 :: fs)

end

mutual

/-- Total node count, used as a fuel bound for `stringify`. -/
def jsonSize : Json → Nat
  | Json.arr es => 1 + jsonSizeList es
  | Json.obj fs => 1 + jsonSizeFields fs
  | _ => 1

/-- Node count of a list of values. -/
def jsonSizeList : List Json → Nat
  | [] => 0
  | e :: es => 1 + jsonSize e + jsonSizeList es

/-- Node count of a list of fields. -/
def jsonSizeFields : List (Str × Json) → Nat
  | [] => 0
  | (_, v) :: fs => 1 + jsonSize v + jsonSizeFields fs

end

/-- `JSON.stringify(v, null, 2)` (the fuel strictly exceeds the number of
recursive steps, so the exhaustion branch is unreachable). -/
def jsonStringify (v : Json) : Str := stringifyVal (jsonSize v + 1) 0 v

/-! ## File-system tree materializer
(`src/components/workspace/panels/CodePanel.tsx`) -/

/-- `FileSystemItem`: tagged union of files and folders. -/
inductive FSItem where
  | file (name content language : Str)
  | folder (name : Str) (children : List FSItem)
deriving Repr

/-- `filename.split(".").pop()`: the text after the last dot (the whole name
when there is no dot). -/
def extOf (filename : Str) : Str :=
  (filename.reverse.takeWhile (fun c => c ≠ '.')).reverse

/-- `getLanguage` from CodePanel: map a (lower-cased) extension to an editor
language id. -/
def getLanguage (filename : Str) : Str :=
  let ext := (extOf filename).map Char.toLower
  if ext = strOf "html" then strOf "html"
  else if ext = strOf "css" then strOf "css"
  else if ext = strOf "js" then strOf "javascript"
  else if ext = strOf "jsx" then strOf "javascript"
  else if ext = strOf "ts" then strOf "typescript"
  else if ext = strOf "tsx" then strOf "typescript"
  else if ext = strOf "json" then strOf "json"
  else if ext = strOf "md" then strOf "markdown"
  else strOf "plaintext"

/-- `s.split(sep)` on JavaScript strings (always returns at least one piece). -/
def splitOn (sep : Char) : Str → List Str
  | [] => [[]]
  | c :: rest =>
    match splitOn sep rest with
    | [] => [[]]
    | h :: t => if c = sep then [] :: h :: t else (c :: h) :: t

/-- Join with a separator character (left inverse of `splitOn`). -/
def joinOn (sep : Char) (pieces : List Str) : Str :=
  match pieces with
  | [] => []
  | [p] => p
  | p :: p2 :: rest => p ++ sep :: joinOn sep (p2 :: rest)

/-- File content: `typeof content === "string" ? content :
JSON.stringify(content, null, 2)`. -/
def contentToStr : Json → Str
  | Json.str s => s
  | v => jsonStringify v

/-- Does `items` contain a folder with this name (`current.find(item =>
item.name === part && item.type === "folder")` succeeding)? -/
def isFolderNamed (part : Str) : FSItem → Bool
  | FSItem.folder n _ => n = part
  | _ => false

/-- Update the children of the first folder with the given name. -/
def mapFirstFolder (part : Str) (f : List FSItem → List FSItem) :
    List FSItem → List FSItem
  | [] => []
  | it :: its =>
    if isFolderNamed part it then
      (match it with
       | FSItem.folder n ch => FSItem.folder n (f ch)
       | x => x) :: its
    else it :: mapFirstFolder part f its

/-- Insert one `path → content` entry into a tree: walk the directory parts,
descending into the first folder of each name and creating missing folders,
then push the file (mirrors the mutation loop of `createDirectoryStructure`).  -/
def insertPath : List Str → Json → List FSItem → List FSItem
  | [], _, items => items
  | [fileName], content, items =>
    items ++ [FSItem.file fileName (contentToStr content) (getLanguage fileName)]
  | part :: p2 :: rest, content, items =>
    if items.any (isFolderNamed part) then
      mapFirstFolder part (insertPath (p2 :: rest) content) items
    else
      items ++ [FSItem.folder part (insertPath (p2 :: rest) content [])]

/-- `createDirectoryStructure`: convert a flat `path → content` map to a
nested tree by splitting each path on `/`. -/
def createDirectoryStructure (files : List (Str × Json)) : List FSItem :=
  files.foldl (fun tree pc => insertPath (splitOn '/' pc.1) pc.2 tree) []

/-- First folder with the given name, returning its children. -/
def findFolder (items : List FSItem) (part : Str) : Option (List FSItem) :=
  items.findSome? (fun it =>
    match it with
    | FSItem.folder n ch => if n = part then some ch else none
    | _ => none)

/-- First file with the given name, returning its content. -/
def findFile (items : List FSItem) (fileName : Str) : Option Str :=
  items.findSome? (fun it =>
    match it with
    | FSItem.file n c _ => if n = fileName then some c else none
    | _ => none)

/-- Navigate a split path through the tree (the loop of `getFileContent`). -/
def getParts : List FSItem → List Str → Option Str
  | _, [] => none
  | items, [fileName] => findFile items fileName
  | items, part :: p2 :: rest =>
    match findFolder items part with
    | some ch => getParts ch (p2 :: rest)
    | none => none

/-- `getFileContent`: `null` for a falsy path, otherwise navigate the split
path. -/
def getFileContent (fileSystem : List FSItem) (path : Str) : Option Str :=
  if path = [] then none
  else getParts fileSystem (splitOn '/' path)

/-- `prefix ? prefix + "/" + name : name`. -/
def joinPath (pre name : Str) : Str :=
  if pre = [] then name else pre ++ '/' :: name

mutual

/-- Node count of a tree item, used as a recursion bound. -/
def fsItemSize : FSItem → Nat
  | FSItem.file _ _ _ => 1
  | FSItem.folder _ ch => 1 + fsListSize ch

/-- Node count of a tree. -/
def fsListSize : List FSItem → Nat
  | [] => 0
  | it :: its => 1 + fsItemSize it + fsListSize its

end

/-- Pre-order traversal returning the first file's path; `fuel` bounds the
number of visited nodes (callers pass a bound exceeding the tree size, so the
exhaustion branch is unreachable). -/
def findFirstFileGo : Nat → List FSItem → Str → Option Str
  | 0, _, _ => none
  | _ + 1, [], _ => none
  | _ + 1, FSItem.file n _ _ :: _, pre => some (joinPath pre n)
  | fuel + 1, FSItem.folder n ch :: rest, pre =>
    match findFirstFileGo fuel ch (joinPath pre n) with
    | some p => some p
    | none => findFirstFileGo fuel rest pre

/-- `findFirstFile`: deterministic pre-order traversal returning the first
file's path. -/
def findFirstFile (tree : List FSItem) (pre : Str) : Option Str :=
  findFirstFileGo (fsListSize tree + 1) tree pre

/-- The fixed priority list of conventional entry-point paths. -/
def mainFileCandidates : List Str :=
  [strOf "src/index.tsx", strOf "src/index.ts", strOf "src/index.jsx",
   strOf "src/index.js", strOf "src/App.tsx", strOf "src/App.jsx",
   strOf "index.html"]

/-- `if (getFileContent(candidate))`: the candidate check is truthiness of the
returned content, so a missing file and an empty file both fail. -/
def truthyContent (fs : List FSItem) (path : Str) : Bool :=
  match getFileContent fs path with
  | some c => c ≠ []
  | none => false

/-- `findMainFile`.  The candidate scan calls the component-scoped
`getFileContent`, which closes over the `fileSystem` React state
(`fsState`) — not the `structure` argument; only the pre-order fallback
traverses `structure`. -/
def findMainFile (fsState : List FSItem) (tree : List FSItem) :
    Option Str :=
  match mainFileCandidates.find? (truthyContent fsState) with
  | some c => some c
  | none =>
    match findFirstFile tree [] with
    | some f => some f
    | none => none

/-! ## Open-editor state and `closeFileTab` -/

/-- Editor state of the main CodePanel
(`src/components/workspace/panels/CodePanel.tsx`). -/
structure EditorState where
  selectedFile : Option Str
  openFiles : List Str
  unsavedChanges : List Str
  currentFileContent : Str
  fileSystem : List FSItem

/-- `closeFileTab` of the main CodePanel (lines 685–712).  `newOpenFiles` of
the source (`openFiles.filter(file => file !== filename)`) is written out at
each use site. -/
def closeFileTab (st : EditorState) (filename : Str) : EditorState :=
  if st.selectedFile = some filename ∧
      st.openFiles.filter (fun f => f ≠ filename) ≠ [] then
    { st with
      openFiles := st.openFiles.filter (fun f => f ≠ filename)
      unsavedChanges := st.unsavedChanges.filter (fun f => f ≠ filename)
      selectedFile := (st.openFiles.filter (fun f => f ≠ filename)).head?
      currentFileContent :=
        match (st.openFiles.filter (fun f => f ≠ filename)).head? with
        | some h => (getFileContent st.fileSystem h).getD st.currentFileContent
        | none => st.currentFileContent }
  else if st.openFiles.filter (fun f => f ≠ filename) = [] then
    { st with
      openFiles := st.openFiles.filter (fun f => f ≠ filename)
      unsavedChanges := st.unsavedChanges.filter (fun f => f ≠ filename)
      selectedFile := none
      currentFileContent := [] }
  else
    { st with
      openFiles := st.openFiles.filter (fun f => f ≠ filename)
      unsavedChanges := st.unsavedChanges.filter (fun f => f ≠ filename) }

/-- Editor state of the legacy CodePanel variant (`src/unnamed/part_001`),
whose file list is the flat `parsedFiles` object (insertion-ordered). -/
structure Editor001State where
  selectedFile : Str
  openFiles : List Str
  unsavedChanges : List Str
  parsedFiles : List (Str × Str)

/-- `closeFileTab` of the legacy variant (`src/unnamed/part_001`,
lines 276–303): when no tabs remain but parsed files exist, reopen and select
the first parsed file. -/
def closeFileTab001 (st : Editor001State) (filename : Str) : Editor001State :=
  if st.selectedFile = filename ∧
      st.openFiles.filter (fun f => f ≠ filename) ≠ [] then
    { st with
      openFiles := st.openFiles.filter (fun f => f ≠ filename)
      unsavedChanges := st.unsavedChanges.filter (fun f => f ≠ filename)
      selectedFile :=
        (st.openFiles.filter (fun f => f ≠ filename)).headD st.selectedFile }
  else if st.openFiles.filter (fun f => f ≠ filename) = [] ∧
      st.parsedFiles ≠ [] then
    { st with
      openFiles := [(st.parsedFiles.headD ([], [])).1]
      unsavedChanges := st.unsavedChanges.filter (fun f => f ≠ filename)
      selectedFile := (st.parsedFiles.headD ([], [])).1 }
  else
    { st with
      openFiles := st.openFiles.filter (fun f => f ≠ filename)
      unsavedChanges := st.unsavedChanges.filter (fun f => f ≠ filename) }

/-! ## Project classifier (`GeminiProvider.generateWebApp`,
`src/unnamed/part_004` lines 167–191) -/

/-- The regex `configText.match(/\{[\s\S]*\}/)`: the leftmost-longest match
runs from the first `{` to the last `}`, provided some `}` follows the first
`{`. -/
def braceMatch (s : Str) : Option Str :=
  match s.dropWhile (fun c => c ≠ '\x7b') with
  | [] => none
  | rest =>
    match rest.reverse.dropWhile (fun c => c ≠ '\x7d') with
    | [] => none
    | rev => some rev.reverse

/-- The fixed default configuration substituted in the `catch` block of the
classifier. -/
def defaultConfigJson : Json :=
  Json.obj
    [(strOf "type", Json.str (strOf "frontend")),
     (strOf "language", Json.str (strOf "typescript")),
     (strOf "frontend", Json.obj
       [(strOf "framework", Json.str (strOf "react")),
        (strOf "styling", Json.str (strOf "tailwind")),
        (strOf "features", Json.arr [])]),
     (strOf "name", Json.str (strOf "default-project")),
     (strOf "description",
      Json.str (strOf "Web application generated from user prompt"))]

/-- `configText = configResponse.text || "{}"` followed by
`jsonMatch ? jsonMatch[0] : "{}"`. -/
def extractJsonString (responseText : Str) : Str :=
  (braceMatch (if responseText = [] then strOf "\x7b\x7d" else responseText)).getD
    (strOf "\x7b\x7d")

/-- The classifier's config-parsing step: `JSON.parse` the extracted string,
substituting the fixed default on a parse exception.  `responseText` is the
`text` field of the classification call's `GeminiResponse`. -/
def classifyConfig (responseText : Str) : Json :=
  match jsonParse (extractJsonString responseText) with
  | some v => v
  | none => defaultConfigJson

/-! ## Response extractor (`GeminiProvider`, `src/unnamed/part_004`)

The extractor is regex-driven in the source.  Each regex operation is
embedded as a left-to-right scanner implementing the backtracking semantics
of that concrete pattern:

* `/```mermaid[\s\S]*?```/g` — `removeMermaid`;
* `/```(?:mermaid|html|js|jsx|tsx|ts|css|[^\s]*)?[\s\S]*?```/g` —
  `stripTextBlocks`;
* `/```(?!mermaid)([^\s]*)?[\s\S]*?```/g` — the match loop of
  `extractCodeBlocks`;
* `/```[^\s]*?\s*\n/` (first occurrence) — `stripOpenFence`;
* `/\s*```$/` — `stripCloseFence`. -/

/-- A code-fence marker. -/
def fence3 : Str := ['`', '`', '`']

/-- Split off a leading fence marker. -/
def fenceSplit? : Str → Option Str
  | c1 :: c2 :: c3 :: t =>
    if c1 = '`' ∧ c2 = '`' ∧ c3 = '`' then some t else none
  | _ => none

/-- Lazy `[\s\S]*?` up to and including the next fence: the suffix after the
earliest fence marker (`none` when no fence follows). -/
def lazyFence : Str → Option Str
  | [] => none
  | c :: u =>
    match fenceSplit? (c :: u) with
    | some t => some t
    | none => lazyFence u

/-- As `lazyFence`, also returning the consumed text (fence included). -/
def lazyFenceSplit : Str → Option (Str × Str)
  | [] => none
  | c :: u =>
    match fenceSplit? (c :: u) with
    | some t => some (fence3, t)
    | none =>
      match lazyFenceSplit u with
      | some (a, b) => some (c :: a, b)
      | none => none

/-- The maximal run of non-whitespace characters at the head (`[^\s]*`,
greedy). -/
def nonWsRun (s : Str) : Str := s.takeWhile (fun c => !isWs c)

/-- Greedy `[^\s]*` followed by lazy `[\s\S]*?` and a fence: try the longest
label first (`k` characters), backtracking downward; each attempt finds the
earliest fence after the label.  Returns the suffix after the fence. -/
def greedyTry (t : Str) : Nat → Option Str
  | 0 => lazyFence t
  | k + 1 =>
    match lazyFence (t.drop (k + 1)) with
    | some u => some u
    | none => greedyTry t k

/-- As `greedyTry`, also returning the consumed text (label, body and closing
fence). -/
def greedyTrySplit (t : Str) : Nat → Option (Str × Str)
  | 0 => lazyFenceSplit t
  | k + 1 =>
    match lazyFenceSplit (t.drop (k + 1)) with
    | some (a, rest) => some (t.take (k + 1) ++ a, rest)
    | none => greedyTrySplit t k

/-- The literal label alternatives of the text-extraction regex, in their
alternation order. -/
def textLits : List Str :=
  [strOf "mermaid", strOf "html", strOf "js", strOf "jsx", strOf "tsx",
   strOf "ts", strOf "css"]

/-- Try each literal label alternative in order: the alternative matches when
it is a prefix of the block body and some fence follows it. -/
def tryLits : List Str → Str → Option Str
  | [], _ => none
  | lit :: ls, t =>
    match (if lit.isPrefixOf t then lazyFence (t.drop lit.length) else none) with
    | some u => some u
    | none => tryLits ls t

/-- Match the remainder of a text-extraction block after its opening fence:
literal label alternatives first, then greedy `[^\s]*` (whose empty case also
covers skipping the optional group).  Returns the suffix after the closing
fence. -/
def matchTextBlock (t : Str) : Option Str :=
  match tryLits textLits t with
  | some u => some u
  | none => greedyTry t (nonWsRun t).length

/-- Scanner for the global replace of
`/```(?:mermaid|html|js|jsx|tsx|ts|css|[^\s]*)?[\s\S]*?```/g` with the empty
string; `fuel` bounds the scan (one unit per step, callers pass the string
length). -/
def stripTextBlocksGo : Nat → Str → Str
  | 0, s => s
  | _ + 1, [] => []
  | fuel + 1, c :: u =>
    match fenceSplit? (c :: u) with
    | some t =>
      match matchTextBlock t with
      | some rest => stripTextBlocksGo fuel rest
      | none => c :: stripTextBlocksGo fuel u
    | none => c :: stripTextBlocksGo fuel u

/-- Remove every fenced block (any label) from the text. -/
def stripTextBlocks (s : Str) : Str := stripTextBlocksGo s.length s

/-- `s.split("\n\n")[0]`: the text before the first double newline. -/
def upToDoubleNl : Str → Str
  | [] => []
  | '\n' :: '\n' :: _ => []
  | c :: u => c :: upToDoubleNl u

/-- `GeminiProvider.extractTextOnly` (lines 34–52): strip all fenced blocks
and trim; if that is empty while the input is not, fall back to the trimmed
first paragraph provided it is non-empty and contains no fence marker. -/
def extractTextOnly (fullText : Str) : Str :=
  if fullText = [] then []
  else if trimStr (stripTextBlocks fullText) = [] then
    if trimStr (upToDoubleNl fullText) ≠ [] ∧
        ¬ hasSub (trimStr (upToDoubleNl fullText)) fence3 then
      trimStr (upToDoubleNl fullText)
    else trimStr (stripTextBlocks fullText)
  else trimStr (stripTextBlocks fullText)

/-- Scanner for the global replace of `/```mermaid[\s\S]*?```/g` with the
empty string. -/
def removeMermaidGo : Nat → Str → Str
  | 0, s => s
  | _ + 1, [] => []
  | fuel + 1, c :: u =>
    match fenceSplit? (c :: u) with
    | some t =>
      if (strOf "mermaid").isPrefixOf t then
        match lazyFence (t.drop 7) with
        | some rest => removeMermaidGo fuel rest
        | none => c :: removeMermaidGo fuel u
      else c :: removeMermaidGo fuel u
    | none => c :: removeMermaidGo fuel u

/-- Remove every mermaid-labelled fenced block. -/
def removeMermaid (s : Str) : Str := removeMermaidGo s.length s

/-- `\s*\n` with a greedy, backtracking `\s*`: consume the longest whitespace
prefix ending in a newline, returning the suffix after that newline. -/
def wsNl : Str → Option Str
  | [] => none
  | c :: u =>
    if c = '\n' then some ((wsNl u).getD u)
    else if isWs c then wsNl u
    else none

/-- `match[0].replace(/```[^\s]*?\s*\n/, "")`: remove the first occurrence of
an opening fence, its label run, and the following whitespace-and-newline. -/
def stripOpenFence : Str → Str
  | [] => []
  | c :: u =>
    match fenceSplit? (c :: u) with
    | some t =>
      match wsNl (t.drop (nonWsRun t).length) with
      | some suffix => suffix
      | none => c :: stripOpenFence u
    | none => c :: stripOpenFence u

/-- `.replace(/\s*```$/, "")`: drop a terminal fence and the whitespace
before it. -/
def stripCloseFence (s : Str) : Str :=
  match fenceSplit? s.reverse with
  | some r => (r.dropWhile isWs).reverse
  | none => s

/-- One match of `/```(?!mermaid)([^\s]*)?[\s\S]*?```/` after an opening
fence: the negative lookahead, then the greedy optional label group and the
lazy body.  Returns the full matched text and the suffix after it. -/
def matchCodeBlock (t : Str) : Option (Str × Str) :=
  if (strOf "mermaid").isPrefixOf t then none
  else
    match greedyTrySplit t (nonWsRun t).length with
    | some (mid, rest) => some (fence3 ++ mid, rest)
    | none => none

/-- The `while ((match = codeRegex.exec(tempText)) !== null)` loop of
`extractCodeBlocks`: for each matched block, strip its fence markers and
append the content plus a blank line. -/
def extractCodeGo : Nat → Str → Str
  | 0, _ => []
  | _ + 1, [] => []
  | fuel + 1, c :: u =>
    match fenceSplit? (c :: u) with
    | some t =>
      match matchCodeBlock t with
      | some (m, rest) =>
        stripCloseFence (stripOpenFence m) ++ '\n' :: '\n' ::
          extractCodeGo fuel rest
      | none => extractCodeGo fuel u
    | none => extractCodeGo fuel u

/-- `GeminiProvider.extractCodeBlocks` (lines 55–70): remove mermaid blocks,
then concatenate the stripped contents of the remaining fenced blocks,
joined by blank lines, and trim. -/
def extractCodeBlocks (s : Str) : Str :=
  trimStr (extractCodeGo (removeMermaid s).length (removeMermaid s))

/-! ## Structured completions (the input class of the extraction claims)

A raw completion is rendered from alternating prose and fenced blocks.  The
well-formedness conditions pin down what the claims' informal "text
containing N fenced code blocks" means: prose and contents are
backtick-free, labels are non-empty runs of non-whitespace non-backtick
characters, contents are non-empty and do not begin or end with whitespace,
prose pieces are non-empty, do not begin with the letters `mermaid`, and no
two prose pieces are adjacent. -/

inductive Piece where
  | text (t : Str)
  | block (label content : Str)

/-- Render one piece: a block is fenced with its label on the opening line. -/
def renderPiece : Piece → Str
  | Piece.text t => t
  | Piece.block l c => fence3 ++ l ++ '\n' :: c ++ '\n' :: fence3

/-- Render a completion. -/
def render (ps : List Piece) : Str := (ps.map renderPiece).flatten

/-- Well-formedness of one piece. -/
def pieceWF : Piece → Prop
  | Piece.text t => t ≠ [] ∧ '`' ∉ t ∧ ¬ (strOf "mermaid").isPrefixOf t
  | Piece.block l c =>
    l ≠ [] ∧ (∀ ch ∈ l, isWs ch = false ∧ ch ≠ '`') ∧
    c ≠ [] ∧ '`' ∉ c ∧
    isWs (c.headD ' ') = false ∧ isWs (c.getLastD ' ') = false

/-- No two adjacent prose pieces. -/
def noAdjTexts : List Piece → Bool
  | Piece.text _ :: Piece.text _ :: _ => false
  | _ :: rest => noAdjTexts rest
  | [] => true

/-- Well-formedness of a completion. -/
def piecesWF (ps : List Piece) : Prop :=
  (∀ p ∈ ps, pieceWF p) ∧ noAdjTexts ps = true

/-- Is a block diagram-labelled (matched by the mermaid regexes)? -/
def isDiagram : Piece → Bool
  | Piece.block l _ => (strOf "mermaid").isPrefixOf l
  | Piece.text _ => false

/-- The prose of a completion, concatenated. -/
def concatTexts (ps : List Piece) : Str :=
  (ps.map (fun p => match p with | Piece.text t => t | _ => [])).flatten

/-- The contents of the non-diagram blocks, in order. -/
def codeContents (ps : List Piece) : List Str :=
  ps.foldr
    (fun p acc =>
      match p with
      | Piece.block l c =>
        if (strOf "mermaid").isPrefixOf l then acc else c :: acc
      | Piece.text _ => acc) []

/-- The contents of all blocks (diagram or not), in order. -/
def allContents (ps : List Piece) : List Str :=
  ps.foldr
    (fun p acc =>
      match p with
      | Piece.block _ c => c :: acc
      | Piece.text _ => acc) []

/-- The labels of all blocks, in order. -/
def labelsOf (ps : List Piece) : List Str :=
  ps.foldr
    (fun p acc =>
      match p with
      | Piece.block l _ => l :: acc
      | Piece.text _ => acc) []

/-- The body of a rendered block after its opening fence, followed by the
rest of the completion (a normal form for the scan lemmas). -/
def blockBody (l c u : Str) : Str :=
  l ++ '\n' :: (c ++ '\n' :: (fence3 ++ u))

/-- Block contents each followed by a blank line, concatenated (the
accumulator shape of `extractCodeBlocks` before its final trim). -/
def joinNN (cs : List Str) : Str :=
  cs.foldr (fun c acc => c ++ '\n' :: '\n' :: acc) []

end AppSpec

namespace AppSpec

/-- A concrete structured completion: prose, a js block, prose, a mermaid
diagram block, prose, a css block, closing prose. -/
def c2pieces : List Piece :=
  [Piece.text (strOf "Intro\n\n"),
   Piece.block (strOf "js") (strOf "const x = 1;"),
   Piece.text (strOf "\nmid\n"),
   Piece.block (strOf "mermaid") (strOf "graph TD"),
   Piece.text (strOf "\n"),
   Piece.block (strOf "css") (strOf "b em"),
   Piece.text (strOf "\nend")]

/-! ## Chat send/resolve machine (`ChatPanel.handleSendMessage`, lines
124–260)

Each send appends a user message and a loading placeholder; each resolution
removes its own loading placeholder, appends the answer, and — when the
response carries a non-empty code payload — dispatches `app-preview-update`,
which overwrites the preview state.  The handler reads no request
identifier when a response arrives: the only id it touches is the loading
message id used to remove the placeholder. -/

/-- One chat transcript entry. -/
inductive ChatMsg where
  | user (content : Str)
  | loading (id : Nat)
  | answer (content : Str)
deriving DecidableEq, Repr

/-- Panel state touched by `handleSendMessage`: the transcript, the preview
code last dispatched, and `loadingMessageRef`. -/
structure ChatState where
  messages : List ChatMsg
  previewCode : Option Str
  loadingRef : Option Nat
deriving DecidableEq, Repr

/-- An interleaving event: a user submit, or the resolution of the awaited
`generateApp` call of request `rid` with its text and code payloads (an
empty code string models an absent/falsy `response.code`). -/
inductive ChatEvent where
  | send (rid : Nat) (query : Str)
  | resolve (rid : Nat) (text : Str) (code : Str)
deriving DecidableEq, Repr

/-- One step of `handleSendMessage`: the code before the `await` runs at the
send event, the code after the `await` runs at the resolve event. -/
def chatStep (s : ChatState) : ChatEvent → ChatState
  | ChatEvent.send rid query =>
    { s with
      messages := s.messages ++ [ChatMsg.user query, ChatMsg.loading rid],
      loadingRef := some rid }
  | ChatEvent.resolve rid text code =>
    { messages :=
        (s.messages.filter (fun m => m ≠ ChatMsg.loading rid)) ++
          [ChatMsg.answer
            (if text = [] then strOf "Sorry, I could not generate a response."
             else text)],
      previewCode := if code = [] then s.previewCode else some code,
      loadingRef := none }

/-- Run an interleaving. -/
def runChat (s : ChatState) (es : List ChatEvent) : ChatState :=
  es.foldl chatStep s

/-- The initial panel state. -/
def chatInit : ChatState :=
  { messages := [], previewCode := none, loadingRef := none }

/-- Two overlapping requests where the first resolves last. -/
def c9trace : List ChatEvent :=
  [ChatEvent.send 1 (strOf "first app"),
   ChatEvent.send 2 (strOf "second app"),
   ChatEvent.resolve 2 (strOf "here is app two") (strOf "<h2>two</h2>"),
   ChatEvent.resolve 1 (strOf "here is app one") (strOf "<h1>one</h1>")]

/-! ## The typing simulation (`CodePanel.startTypingEffect`, its 50 ms
interval, `skipTyping` and `parseCodeIntoFiles`)

State updates are modelled synchronously except where the source reads a
React state variable inside a closure: the interval callback captures
`typingPaused` and `selectedFile` from the render that created it
(`capturedPaused`, `capturedSelected`), and `parseCodeIntoFiles` reads the
pre-update `fileSystem` through `getFileContent`/`findMainFile`.
`parseCount` is a ghost counter of `parseCodeIntoFiles` invocations, i.e.
of full-buffer structure detections. -/

/-- Decimal digits of a natural number (`Object.entries` keys of an
array). -/
def natToStrGo : Nat → Nat → Str
  | 0, _ => []
  | fuel + 1, n =>
    if n < 10 then [Char.ofNat (48 + n)]
    else natToStrGo fuel (n / 10) ++ [Char.ofNat (48 + n % 10)]

/-- Decimal rendering of a natural number. -/
def natToStr (n : Nat) : Str := natToStrGo (n + 1) n

/-- `Object.entries` of a JSON array: index-keyed entries in order. -/
def arrayEntries (vs : List Json) : List (Str × Json) :=
  ((List.range vs.length).zip vs).map (fun p => (natToStr p.1, p.2))

/-- The `src/index.tsx` template literal of `extractFilesFromCode`. -/
def skeletonIndexTsx : Str :=
  strOf "import React from \x27react\x27;\nimport ReactDOM from \x27react-dom/client\x27;\nimport App from \x27./App\x27;\nimport \x27./index.css\x27;\n\nReactDOM.createRoot(document.getElementById(\x27root\x27)).render(\n  <React.StrictMode>\n    <App />\n  </React.StrictMode>\n);\n"

/-- The `src/index.css` template literal of `extractFilesFromCode`. -/
def skeletonIndexCss : Str :=
  strOf "body \x7b\n  margin: 0;\n  font-family: -apple-system, BlinkMacSystemFont, \x27Segoe UI\x27, \x27Roboto\x27, \x27Oxygen\x27,\n    \x27Ubuntu\x27, \x27Cantarell\x27, \x27Fira Sans\x27, \x27Droid Sans\x27, \x27Helvetica Neue\x27,\n    sans-serif;\n  -webkit-font-smoothing: antialiased;\n  -moz-osx-font-smoothing: grayscale;\n\x7d\n\ncode \x7b\n  font-family: source-code-pro, Menlo, Monaco, Consolas, \x27Courier New\x27,\n    monospace;\n\x7d\n"

/-- The `index.html` template literal of `extractFilesFromCode`. -/
def skeletonIndexHtml : Str :=
  strOf "<!DOCTYPE html>\n<html lang=\"en\">\n  <head>\n    <meta charset=\"UTF-8\" />\n    <meta name=\"viewport\" content=\"width=device-width, initial-scale=1.0\" />\n    <title>React App</title>\n  </head>\n  <body>\n    <div id=\"root\"></div>\n    <script type=\"module\" src=\"/src/index.tsx\"></script>\n  </body>\n</html>\n"

/-- The `vite.config.ts` template literal of `extractFilesFromCode`. -/
def skeletonViteConfig : Str :=
  strOf "import \x7b defineConfig \x7d from \x27vite\x27\nimport react from \x27@vitejs/plugin-react\x27\n\nexport default defineConfig(\x7b\n  plugins: [react()],\n\x7d)\n"

/-- The object literal stringified into `package.json`. -/
def packageJsonValue : Json :=
  Json.obj
    [(strOf "name", Json.str (strOf "react-app")),
     (strOf "version", Json.str (strOf "0.1.0")),
     (strOf "private", Json.bool true),
     (strOf "dependencies", Json.obj
       [(strOf "react", Json.str (strOf "^18.2.0")),
        (strOf "react-dom", Json.str (strOf "^18.2.0")),
        (strOf "typescript", Json.str (strOf "^5.0.2")),
        (strOf "vite", Json.str (strOf "^4.4.5"))]),
     (strOf "scripts", Json.obj
       [(strOf "dev", Json.str (strOf "vite")),
        (strOf "build", Json.str (strOf "tsc && vite build")),
        (strOf "preview", Json.str (strOf "vite preview"))])]

/-- The object literal stringified into `tsconfig.json`. -/
def tsconfigValue : Json :=
  Json.obj
    [(strOf "compilerOptions", Json.obj
       [(strOf "target", Json.str (strOf "ES2020")),
        (strOf "useDefineForClassFields", Json.bool true),
        (strOf "lib", Json.arr
          [Json.str (strOf "ES2020"), Json.str (strOf "DOM"),
           Json.str (strOf "DOM.Iterable")]),
        (strOf "module", Json.str (strOf "ESNext")),
        (strOf "skipLibCheck", Json.bool true),
        (strOf "moduleResolution", Json.str (strOf "bundler")),
        (strOf "allowImportingTsExtensions", Json.bool true),
        (strOf "resolveJsonModule", Json.bool true),
        (strOf "isolatedModules", Json.bool true),
        (strOf "noEmit", Json.bool true),
        (strOf "jsx", Json.str (strOf "react-jsx")),
        (strOf "strict", Json.bool true),
        (strOf "noUnusedLocals", Json.bool true),
        (strOf "noUnusedParameters", Json.bool true),
        (strOf "noFallthroughCasesInSwitch", Json.bool true)]),
     (strOf "include", Json.arr [Json.str (strOf "src")]),
     (strOf "references", Json.arr
       [Json.obj [(strOf "path", Json.str (strOf "./tsconfig.node.json"))]])]

/-- The object literal stringified into `tsconfig.node.json`. -/
def tsconfigNodeValue : Json :=
  Json.obj
    [(strOf "compilerOptions", Json.obj
       [(strOf "composite", Json.bool true),
        (strOf "skipLibCheck", Json.bool true),
        (strOf "module", Json.str (strOf "ESNext")),
        (strOf "moduleResolution", Json.str (strOf "bundler")),
        (strOf "allowSyntheticDefaultImports", Json.bool true)]),
     (strOf "include", Json.arr [Json.str (strOf "vite.config.ts")])]

/-- Case-insensitive literal prefix match (the `i` regex flag), returning
the suffix after the literal. -/
def ciPrefix : Str → Str → Option Str
  | [], s => some s
  | _ :: _, [] => none
  | p0 :: p', c :: s' =>
    if c.toLower = p0.toLower then ciPrefix p' s' else none

/-- Earliest case-insensitive occurrence of the closing literal: returns
the text before it and the suffix after it (the lazy `([\s\S]*?)` capture
and the remainder). -/
def findCloseCI (close : Str) : Nat → Str → Option (Str × Str)
  | 0, _ => none
  | fuel + 1, s =>
    match ciPrefix close s with
    | some rest => some ([], rest)
    | none =>
      match s with
      | [] => none
      | c :: u =>
        match findCloseCI close fuel u with
        | some (cap, rest) => some (c :: cap, rest)
        | none => none

/-- First match of `/<tag[^>]*>([\s\S]*?)<\/tag>/i`: at each start
position, match the opening literal, skip `[^>]*` to a `>`, then find the
earliest closing literal; on failure resume at the next position.  Returns
the capture group. -/
def tagCapture (openTag closeTag : Str) : Nat → Str → Option Str
  | 0, _ => none
  | fuel + 1, s =>
    match s with
    | [] => none
    | c :: u =>
      match ciPrefix openTag (c :: u) with
      | some afterOpen =>
        match afterOpen.dropWhile (fun ch => ch ≠ '>') with
        | '>' :: body =>
          match findCloseCI closeTag body.length body with
          | some (cap, _) => some cap
          | none => tagCapture openTag closeTag fuel u
        | _ => tagCapture openTag closeTag fuel u
      | none => tagCapture openTag closeTag fuel u

/-- `extractFilesFromCode` (lines 227–366): React-looking code gets the
React project skeleton, HTML-looking code becomes `index.html` plus
extracted style/script blocks, and anything else becomes a single
`src/main.js` or `src/main.txt` file. -/
def extractFilesFromCode (code : Str) : List (Str × Json) :=
  if hasSub code (strOf "import React") ||
      (hasSub code (strOf "function") && hasSub code (strOf "return") &&
        hasSub code (strOf "<")) then
    [(strOf "src/App.tsx", Json.str code),
     (strOf "src/index.tsx", Json.str skeletonIndexTsx),
     (strOf "src/index.css", Json.str skeletonIndexCss),
     (strOf "package.json", Json.str (jsonStringify packageJsonValue)),
     (strOf "index.html", Json.str skeletonIndexHtml),
     (strOf "vite.config.ts", Json.str skeletonViteConfig),
     (strOf "tsconfig.json", Json.str (jsonStringify tsconfigValue)),
     (strOf "tsconfig.node.json", Json.str (jsonStringify tsconfigNodeValue))]
  else if hasSub code (strOf "<!DOCTYPE html>") || hasSub code (strOf "<html") then
    (strOf "index.html", Json.str code) ::
      ((match tagCapture (strOf "<style") (strOf "</style>") code.length code with
        | some cap =>
          if cap ≠ [] then [(strOf "src/styles.css", Json.str (trimStr cap))]
          else []
        | none => []) ++
       (match tagCapture (strOf "<script") (strOf "</script>") code.length code with
        | some cap =>
          if cap ≠ [] then [(strOf "src/index.js", Json.str (trimStr cap))]
          else []
        | none => []))
  else
    [(strOf "src/main" ++
        (if hasSub code (strOf "function") then strOf ".js" else strOf ".txt"),
      Json.str code)]

/-- Structure detection as run by `parseCodeIntoFiles` and
`startTypingEffect`: `JSON.parse` with the `typeof === "object"` check
(arrays give index-keyed entries; a non-object value or a parse error falls
back to `extractFilesFromCode`), then `Object.entries`.  `none` is the
uncaught `TypeError` of `Object.entries(null)`: JSON `null` passes the
`typeof` test and `createDirectoryStructure(null)` throws outside the
fallback's `try`. -/
def detect (code : Str) : Option (List (Str × Json)) :=
  match jsonParse code with
  | some (Json.obj fields) => some fields
  | some (Json.arr elems) => some (arrayEntries elems)
  | some Json.null => none
  | some _ => some (extractFilesFromCode code)
  | none => some (extractFilesFromCode code)

/-- CodePanel state touched by the typing machinery.  `intervalSet` is
`typingIntervalRef.current !== null` (sticky: `clearInterval` does not null
the ref), `intervalActive` says the interval is still scheduled,
`capturedPaused`/`capturedSelected` are the values of
`typingPaused`/`selectedFile` captured by the interval closure, and
`parseCount` is the ghost count of full-buffer parses. -/
structure PanelState where
  fileSystem : List FSItem
  selectedFile : Option Str
  openFiles : List Str
  currentFileContent : Str
  unsavedChanges : List Str
  typingPos : Nat
  codeBuffer : Str
  intervalActive : Bool
  intervalSet : Bool
  isTyping : Bool
  typingPaused : Bool
  capturedPaused : Bool
  capturedSelected : Option Str
  parseCount : Nat
deriving Repr

/-- `const [typingSpeed] = useState(10)`: never updated. -/
def typingSpeed : Nat := 10

/-- `parseCodeIntoFiles` (lines 182–224).  The candidate scan of
`findMainFile` and the `getFileContent(mainFile)` read go through the
component's `getFileContent`, which still sees the pre-update `fileSystem`
state.  When detection returns `none` the thrown error is caught by the
outer `try` and no state is written. -/
def parseCodeIntoFiles (st : PanelState) (code : Str) : PanelState :=
  let st0 := { st with parseCount := st.parseCount + 1 }
  match detect code with
  | none => st0
  | some files =>
    let newFS := createDirectoryStructure files
    let st1 := { st0 with fileSystem := newFS, unsavedChanges := [] }
    match findMainFile st.fileSystem newFS with
    | some mainFile =>
      { st1 with
        selectedFile := some mainFile,
        openFiles := [mainFile],
        currentFileContent :=
          match getFileContent st.fileSystem mainFile with
          | some fc => if fc = [] then st.currentFileContent else fc
          | none => st.currentFileContent }
    | none => st1

/-- The two state writes of the interval's partial-parse branch: the new
tree, and the new editor content when the captured selected file exists in
the partial map with truthy content.  `createDirectoryStructure` runs
inside the inner `try` here, so a JSON `null` falls back to
`extractFilesFromCode` instead of aborting. -/
def partialWrites (capturedSelected : Option Str) (newText : Str) :
    List FSItem × Option Str :=
  match jsonParse newText with
  | some (Json.obj fields) => (createDirectoryStructure fields, none)
  | some (Json.arr elems) => (createDirectoryStructure (arrayEntries elems), none)
  | _ =>
    let files := extractFilesFromCode newText
    let tree := createDirectoryStructure files
    match capturedSelected with
    | some sel =>
      match files.find? (fun pc => pc.1 = sel) with
      | some (_, Json.str s) =>
        if s = [] then (tree, none) else (tree, some s)
      | _ => (tree, none)
    | none => (tree, none)

/-- `startTypingEffect` (lines 451–543) up to scheduling the interval:
reset the position and buffer, clear any previous interval, detect the
structure, materialize the initial tree, select the main file with empty
content, and start the interval (capturing `typingPaused` and
`selectedFile`).  `none` models the uncaught throw of
`createDirectoryStructure(null)`: no interval ever starts. -/
def startTypingEffect (st : PanelState) (fullCode : Str) : Option PanelState :=
  let st0 :=
    { st with
      typingPos := 0
      codeBuffer := fullCode
      intervalActive := false }
  match detect fullCode with
  | none => none
  | some files =>
    let initialStructure := createDirectoryStructure files
    let st1 := { st0 with fileSystem := initialStructure }
    let st2 :=
      match findMainFile st.fileSystem initialStructure with
      | some mainFile =>
        { st1 with
          selectedFile := some mainFile
          openFiles := [mainFile]
          currentFileContent := [] }
      | none => st1
    some
      { st2 with
        intervalActive := true
        intervalSet := true
        capturedPaused := st.typingPaused
        capturedSelected := st.selectedFile }

/-- One firing of the 50 ms interval callback. -/
def tick (st : PanelState) : PanelState :=
  if st.intervalActive = false then st
  else if st.capturedPaused then st
  else
    let currentPosition := st.typingPos
    let charsToAdd := min typingSpeed (st.codeBuffer.length - currentPosition)
    if charsToAdd = 0 then
      parseCodeIntoFiles
        { st with intervalActive := false, isTyping := false } st.codeBuffer
    else
      let newText := st.codeBuffer.take (currentPosition + charsToAdd)
      let pw := partialWrites st.capturedSelected newText
      let st1 := { st with
        typingPos := currentPosition + charsToAdd,
        fileSystem := pw.1,
        currentFileContent := pw.2.getD st.currentFileContent }
      if st.codeBuffer.length ≤ currentPosition + charsToAdd then
        parseCodeIntoFiles
          { st1 with intervalActive := false, isTyping := false } st.codeBuffer
      else st1

/-- `skipTyping` (lines 550–558): guarded by the (sticky) interval ref;
clear the interval, parse the full buffer, stop typing, unpause. -/
def skipTyping (st : PanelState) : PanelState :=
  if st.intervalSet then
    { parseCodeIntoFiles { st with intervalActive := false } st.codeBuffer with
      isTyping := false, typingPaused := false }
  else st

/-- User-visible events while the panel is mounted.  The skip and pause
controls are rendered only while `isTyping` (line 1155), so those events
reach their handlers only in typing states. -/
inductive PanelEvent where
  | tickEv
  | skipEv
  | pauseToggle
deriving DecidableEq, Repr

/-- One event step. -/
def stepPanel (st : PanelState) : PanelEvent → PanelState
  | PanelEvent.tickEv => tick st
  | PanelEvent.skipEv => if st.isTyping then skipTyping st else st
  | PanelEvent.pauseToggle => { st with typingPaused := !st.typingPaused }

/-- Run an event sequence. -/
def runPanel (st : PanelState) (evs : List PanelEvent) : PanelState :=
  evs.foldl stepPanel st

/-- A fresh panel after the `isGenerating` effect set `isTyping`. -/
def c6start : PanelState :=
  { fileSystem := [], selectedFile := none, openFiles := [],
    currentFileContent := [], unsavedChanges := [],
    typingPos := 0, codeBuffer := [],
    intervalActive := false, intervalSet := false,
    isTyping := true, typingPaused := false,
    capturedPaused := false, capturedSelected := none,
    parseCount := 0 }

/-- A structured JSON payload: one file `a/b.js` with content `x`. -/
def c6buffer : Str := strOf "\x7b\"a/b.js\": \"x\"\x7d"

/-- The entries detection finds in `c6buffer`. -/
def c6files : List (Str × Json) := [(strOf "a/b.js", Json.str (strOf "x"))]

/-- Two interval firings: a partial prefix, then the completing tick. -/
def c6evs : List PanelEvent := [PanelEvent.tickEv, PanelEvent.tickEv]

/-- The typing machine between start and settlement: interval scheduled,
typing flag on (so the skip control is visible), interval ref set, buffer
intact, and no full-buffer parse yet. -/
def TypingLive (buffer : Str) (n0 : Nat) (st : PanelState) : Prop :=
  st.intervalActive = true ∧ st.isTyping = true ∧ st.intervalSet = true ∧
  st.codeBuffer = buffer ∧ st.parseCount = n0

/-- The settled machine: interval stopped, typing flag off, the buffer has
been fully parsed exactly once, and the tree is the direct parse's tree. -/
def TypingSettled (buffer : Str) (files : List (Str × Json)) (n0 : Nat)
    (st : PanelState) : Prop :=
  st.intervalActive = false ∧ st.isTyping = false ∧
  st.codeBuffer = buffer ∧ st.parseCount = n0 + 1 ∧
  st.fileSystem = createDirectoryStructure files

end AppSpec

namespace AppSpec

/-! ## Theorems for C10 -/

/-- A configuration needing a frontend sub-object that is absent, or a backend
sub-object that is absent. -/
def missingSubConfig (c : ProjectConfig) : Prop :=
  ((c.type = PType.frontend ∨ c.type = PType.fullstack) ∧ c.frontend = none) ∨
  ((c.type = PType.backend ∨ c.type = PType.fullstack) ∧ c.backend = none)

instance : DecidablePred missingSubConfig := fun _ => by
  unfold missingSubConfig; infer_instance

/-- The concrete file map of the claim. -/
def exampleFileMap : List (Str × Json) :=
  [(strOf "a/b.js", Json.str (strOf "x")), (strOf "a/c.js", Json.str (strOf "y"))]

/-- A component-state tree left over from a previous generation, holding a
non-empty `src/index.tsx`. -/
def staleStateTree : List FSItem :=
  [FSItem.folder (strOf "src")
    [FSItem.file (strOf "index.tsx") (strOf "OLD") (strOf "typescript")]]

/-- A freshly produced tree containing none of the priority candidates. -/
def producedTree : List FSItem :=
  [FSItem.folder (strOf "lib")
    [FSItem.file (strOf "x.js") (strOf "X") (strOf "javascript")]]

/-- C8 counterexample state: one open tab (which is selected) and a non-empty
tree containing `b.txt`. -/
def c8State : EditorState :=
  { selectedFile := some (strOf "a.txt")
    openFiles := [strOf "a.txt"]
    unsavedChanges := []
    currentFileContent := strOf "A"
    fileSystem := [FSItem.file (strOf "b.txt") (strOf "B") (strOf "plaintext")] }

/-- C10: `ProjectGenerator.createSession` errors exactly when the config's
type requires an absent sub-configuration (frontend/fullstack without a
frontend object, backend/fullstack without a backend object); otherwise it
returns a session whose `config` equals the input unchanged and whose
`terminalPath` is derived from the fresh session id. -/
theorem createSession_spec (c : ProjectConfig) (sessionId : Str) :
    ((createSession c sessionId).isOk = false ↔ missingSubConfig c) ∧
    (¬ missingSubConfig c →
      createSession c sessionId =
        .ok { id := sessionId, config := c,
              terminalPath := terminalPathOf sessionId }) := by
  unfold createSession missingSubConfig
  rcases c with ⟨t, lang, fe, be, nm, desc⟩
  cases t <;> cases fe <;> cases be <;>
    simp [Except.isOk, Except.toBool]

/-- Witness for `createSession_spec`: a concrete frontend config with a
frontend sub-object present is accepted unchanged. -/
theorem createSession_spec_witness :
    ¬ missingSubConfig
        { type := .frontend, language := .typescript,
          frontend := some ⟨strOf "react", strOf "tailwind"⟩,
          backend := none, name := strOf "p", description := none } ∧
    createSession
        { type := .frontend, language := .typescript,
          frontend := some ⟨strOf "react", strOf "tailwind"⟩,
          backend := none, name := strOf "p", description := none }
        (strOf "abc") =
      .ok { id := strOf "abc",
            config := { type := .frontend, language := .typescript,
                        frontend := some ⟨strOf "react", strOf "tailwind"⟩,
                        backend := none, name := strOf "p",
                        description := none },
            terminalPath := terminalPathOf (strOf "abc") } :=
  ⟨by decide,
   (createSession_spec
      { type := .frontend, language := .typescript,
        frontend := some ⟨strOf "react", strOf "tailwind"⟩,
        backend := none, name := strOf "p", description := none }
      (strOf "abc")).2 (by decide)⟩

/-! ## Theorems for C3 -/

/-- C3 counterexample: the claim holds that input whose trimmed text begins
with a recognized keyword such as `pie` is passed through without the
flowchart prefix, but the code recognizes only `graph` and `flowchart`, so a
`pie` diagram is prefixed (hence modified). -/
theorem renderMermaid_pie_counterexample :
    startsWith (trimStr (strOf "pie title Pets")) (strOf "pie") = true ∧
    renderMermaidNormalize (strOf "pie title Pets") ≠ strOf "pie title Pets" ∧
    renderMermaidNormalize (strOf "pie title Pets") =
      strOf "flowchart TD\n" ++ strOf "pie title Pets" := by
  refine ⟨by decide, by decide, by decide⟩

/-- C3 (amended): empty or whitespace-only input shows the neutral empty-state
placeholder (the `part_002` panel variant); in the main CodePanel variant a
definition whose trimmed text does not begin with `graph` or `flowchart` —
these are the only recognized keywords — has a default `flowchart TD`
declaration prefixed, and one that does begin with `graph` or `flowchart`
is passed through unmodified. -/
theorem renderMermaid_normalize_spec (code : Str) :
    (trimStr code = [] → renderMermaidPart002 code = .placeholder) ∧
    (¬ startsWith (trimStr code) (strOf "graph") = true →
     ¬ startsWith (trimStr code) (strOf "flowchart") = true →
      renderMermaidNormalize code = strOf "flowchart TD\n" ++ code) ∧
    (startsWith (trimStr code) (strOf "graph") = true ∨
     startsWith (trimStr code) (strOf "flowchart") = true →
      renderMermaidNormalize code = code) := by
  refine ⟨?_, ?_, ?_⟩
  · intro h
    unfold renderMermaidPart002
    cases code with
    | nil => simp
    | cons c cs => simp [h]
  · intro h1 h2
    unfold renderMermaidNormalize
    simp [h1, h2]
  · intro h
    unfold renderMermaidNormalize
    rcases h with h | h <;> simp [h]

/-- Witness for `renderMermaid_normalize_spec`: a whitespace-only diagram
yields the placeholder, a keyword-less diagram is prefixed, and a `graph TD`
diagram passes through unchanged. -/
theorem renderMermaid_normalize_spec_witness :
    renderMermaidPart002 (strOf "  \n ") = .placeholder ∧
    renderMermaidNormalize (strOf "A --> B") =
      strOf "flowchart TD\n" ++ strOf "A --> B" ∧
    renderMermaidNormalize (strOf "graph TD\nA --> B") =
      strOf "graph TD\nA --> B" :=
  ⟨(renderMermaid_normalize_spec (strOf "  \n ")).1 (by decide),
   (renderMermaid_normalize_spec (strOf "A --> B")).2.1 (by decide) (by decide),
   (renderMermaid_normalize_spec (strOf "graph TD\nA --> B")).2.2
     (Or.inl (by decide))⟩

/-! ## Theorems for C1 -/

/-- C1 counterexample: a classifier response with no balanced `{...}`
substring does not fall back to the fixed default — the code substitutes the
literal `"{}"`, which parses successfully, so the classifier returns the empty
configuration object. -/
theorem classifyConfig_no_braces_counterexample :
    classifyConfig (strOf "no json here") = Json.obj [] ∧
    Json.obj [] ≠ defaultConfigJson := by
  constructor
  · rfl
  · intro h
    simp [defaultConfigJson] at h

/-- C1 (amended): when the extracted `{...}` substring fails to parse as
JSON, the classifier substitutes the fixed default configuration; when the
parse succeeds the parsed value is used; but when the response contains no
balanced `{...}` substring at all (including the empty response), the literal
`"{}"` is parsed instead and the classifier returns an empty configuration
object rather than the fixed default. -/
theorem classifyConfig_spec (s : Str) :
    (jsonParse (extractJsonString s) = none →
      classifyConfig s = defaultConfigJson) ∧
    (∀ v, jsonParse (extractJsonString s) = some v → classifyConfig s = v) ∧
    (braceMatch (if s = [] then strOf "\x7b\x7d" else s) = none →
      classifyConfig s = Json.obj []) := by
  refine ⟨?_, ?_, ?_⟩
  · intro h
    unfold classifyConfig
    rw [h]
  · intro v h
    unfold classifyConfig
    rw [h]
  · intro h
    unfold classifyConfig extractJsonString
    rw [h]
    rfl

/-- Witness for `classifyConfig_spec`: an unparsable extracted object yields
the fixed default, and a brace-free response yields the empty object. -/
theorem classifyConfig_spec_witness :
    classifyConfig (strOf "\x7boops\x7d") = defaultConfigJson ∧
    classifyConfig (strOf "plain text") = Json.obj [] :=
  ⟨(classifyConfig_spec (strOf "\x7boops\x7d")).1 (by rfl),
   (classifyConfig_spec (strOf "plain text")).2.2 (by rfl)⟩

/-! ## Tree lemmas (for C4, C5) -/

theorem findFolder_nil (part : Str) : findFolder [] part = none := rfl

theorem findFile_nil (name : Str) : findFile [] name = none := rfl

theorem findFolder_cons_file (n c lang : Str) (its : List FSItem) (part : Str) :
    findFolder (FSItem.file n c lang :: its) part = findFolder its part := by
  simp [findFolder, List.findSome?_cons]

theorem findFolder_cons_folder (n : Str) (ch : List FSItem) (its : List FSItem)
    (part : Str) :
    findFolder (FSItem.folder n ch :: its) part =
      if n = part then some ch else findFolder its part := by
  by_cases h : n = part <;> simp [findFolder, List.findSome?_cons, h]

theorem findFile_cons_file (n c lang : Str) (its : List FSItem) (g : Str) :
    findFile (FSItem.file n c lang :: its) g =
      if n = g then some c else findFile its g := by
  by_cases h : n = g <;> simp [findFile, List.findSome?_cons, h]

theorem findFile_cons_folder (n : Str) (ch : List FSItem) (its : List FSItem)
    (g : Str) :
    findFile (FSItem.folder n ch :: its) g = findFile its g := by
  simp [findFile, List.findSome?_cons]

theorem findFolder_append (l1 l2 : List FSItem) (part : Str) :
    findFolder (l1 ++ l2) part =
      match findFolder l1 part with
      | some ch => some ch
      | none => findFolder l2 part := by
  induction l1 with
  | nil => simp [findFolder_nil]
  | cons it its ih =>
    cases it with
    | file n c lang => simpa [findFolder_cons_file] using ih
    | folder n ch =>
      by_cases h : n = part <;> simp [findFolder_cons_folder, h, ih]

theorem findFile_append (l1 l2 : List FSItem) (g : Str) :
    findFile (l1 ++ l2) g =
      match findFile l1 g with
      | some c => some c
      | none => findFile l2 g := by
  induction l1 with
  | nil => simp [findFile]
  | cons it its ih =>
    cases it with
    | file n c lang =>
      by_cases h : n = g <;> simp [findFile_cons_file, h, ih]
    | folder n ch => simpa [findFile_cons_folder] using ih

theorem any_folder_iff (items : List FSItem) (part : Str) :
    items.any (isFolderNamed part) = (findFolder items part).isSome := by
  induction items with
  | nil => simp [findFolder_nil]
  | cons it its ih =>
    cases it with
    | file n c lang => simpa [isFolderNamed, findFolder_cons_file] using ih
    | folder n ch =>
      by_cases h : n = part <;>
        simp [isFolderNamed, findFolder_cons_folder, h, ih]

theorem findFolder_mapFirstFolder_same (items : List FSItem) (part : Str)
    (f : List FSItem → List FSItem) (ch : List FSItem)
    (h : findFolder items part = some ch) :
    findFolder (mapFirstFolder part f items) part = some (f ch) := by
  induction items with
  | nil => simp [findFolder_nil] at h
  | cons it its ih =>
    cases it with
    | file n c lang =>
      rw [findFolder_cons_file] at h
      simpa [mapFirstFolder, isFolderNamed, findFolder_cons_file] using ih h
    | folder n ch' =>
      by_cases hn : n = part
      · rw [findFolder_cons_folder, if_pos hn] at h
        cases h
        simp [mapFirstFolder, isFolderNamed, hn, findFolder_cons_folder]
      · rw [findFolder_cons_folder, if_neg hn] at h
        simpa [mapFirstFolder, isFolderNamed, hn, findFolder_cons_folder]
          using ih h

theorem findFolder_mapFirstFolder_other (items : List FSItem) (part q : Str)
    (f : List FSItem → List FSItem) (hq : q ≠ part) :
    findFolder (mapFirstFolder part f items) q = findFolder items q := by
  induction items with
  | nil => simp [mapFirstFolder]
  | cons it its ih =>
    cases it with
    | file n c lang =>
      simp [mapFirstFolder, isFolderNamed, findFolder_cons_file, ih]
    | folder n ch =>
      by_cases hn : n = part
      · subst hn
        have : n ≠ q := fun h => hq h.symm
        simp [mapFirstFolder, isFolderNamed, findFolder_cons_folder, this]
      · simp [mapFirstFolder, isFolderNamed, hn, findFolder_cons_folder, ih]

theorem findFile_mapFirstFolder (items : List FSItem) (part g : Str)
    (f : List FSItem → List FSItem) :
    findFile (mapFirstFolder part f items) g = findFile items g := by
  induction items with
  | nil => simp [mapFirstFolder]
  | cons it its ih =>
    cases it with
    | file n c lang =>
      simp [mapFirstFolder, isFolderNamed, findFile_cons_file, ih]
    | folder n ch =>
      by_cases hn : n = part <;>
        simp [mapFirstFolder, isFolderNamed, hn, findFile_cons_folder, ih]

theorem getParts_nil (q : List Str) : getParts [] q = none := by
  match q with
  | [] => rfl
  | [g] => rfl
  | q1 :: q2 :: qr => simp [getParts, findFolder_nil]

theorem findFile_singleton_file_ne (part c lang g : Str) (h : part ≠ g) :
    findFile [FSItem.file part c lang] g = none := by
  rw [findFile_cons_file, if_neg h]; rfl

theorem findFolder_singleton_file (part c lang q1 : Str) :
    findFolder [FSItem.file part c lang] q1 = none := by
  rw [findFolder_cons_file]; rfl

theorem findFolder_singleton_folder_ne (part : Str) (ch : List FSItem)
    (q1 : Str) (h : part ≠ q1) :
    findFolder [FSItem.folder part ch] q1 = none := by
  rw [findFolder_cons_folder, if_neg h]; rfl

theorem findFolder_singleton_folder_eq (part : Str) (ch : List FSItem) :
    findFolder [FSItem.folder part ch] part = some ch := by
  rw [findFolder_cons_folder, if_pos rfl]

theorem findFile_singleton_folder (part : Str) (ch : List FSItem) (g : Str) :
    findFile [FSItem.folder part ch] g = none := by
  rw [findFile_cons_folder]; rfl

theorem findFolder_none_of_not_any (items : List FSItem) (part : Str)
    (hany : ¬ items.any (isFolderNamed part) = true) :
    findFolder items part = none := by
  cases hf : findFolder items part with
  | none => rfl
  | some ch =>
    exfalso
    rw [any_folder_iff, hf] at hany
    simp at hany

/-- Inserting a path leaves every other path's lookup unchanged. -/
theorem getParts_insertPath_other (parts : List Str) :
    ∀ (q : List Str) (c : Json) (items : List FSItem),
      parts ≠ [] → q ≠ parts →
      getParts (insertPath parts c items) q = getParts items q := by
  induction parts with
  | nil => intro q c items hne; exact absurd rfl hne
  | cons part rest ih =>
    intro q c items _ hq
    cases rest with
    | nil =>
      match q with
      | [] => simp [getParts]
      | [g] =>
        have hg : part ≠ g := fun h => hq (by simp [h])
        simp only [insertPath, getParts]
        rw [findFile_append]
        cases hf : findFile items g <;>
          simp [hf, findFile_singleton_file_ne part _ _ g hg]
      | q1 :: q2 :: qr =>
        simp only [insertPath, getParts]
        rw [findFolder_append]
        cases hf : findFolder items q1 <;>
          simp [hf, findFolder_singleton_file]
    | cons p2 rest' =>
      simp only [insertPath]
      by_cases hany : items.any (isFolderNamed part)
      · rw [if_pos hany]
        have hsome : (findFolder items part).isSome := by
          rw [← any_folder_iff]; exact hany
        obtain ⟨ch, hch⟩ := Option.isSome_iff_exists.mp hsome
        match q with
        | [] => simp [getParts]
        | [g] => simp [getParts, findFile_mapFirstFolder]
        | q1 :: q2 :: qr =>
          by_cases hq1 : q1 = part
          · subst hq1
            have hne2 : (q2 :: qr) ≠ (p2 :: rest') := by
              intro h; exact hq (by rw [h])
            simp only [getParts]
            rw [findFolder_mapFirstFolder_same items q1 _ ch hch, hch]
            exact ih (q2 :: qr) c ch (by simp) hne2
          · simp only [getParts]
            rw [findFolder_mapFirstFolder_other items part q1 _ hq1]
      · rw [if_neg hany]
        have hfnone : findFolder items part = none :=
          findFolder_none_of_not_any items part hany
        match q with
        | [] => simp [getParts]
        | [g] =>
          simp only [getParts]
          rw [findFile_append]
          cases hf : findFile items g <;>
            simp [hf, findFile_singleton_folder]
        | q1 :: q2 :: qr =>
          by_cases hq1 : q1 = part
          · subst hq1
            have hne2 : (q2 :: qr) ≠ (p2 :: rest') := by
              intro h; exact hq (by rw [h])
            simp only [getParts]
            rw [findFolder_append, hfnone]
            simp only [findFolder_singleton_folder_eq]
            rw [ih (q2 :: qr) c [] (by simp) hne2, getParts_nil]
          · simp only [getParts]
            rw [findFolder_append]
            have hsing := findFolder_singleton_folder_ne part
              (insertPath (p2 :: rest') c []) q1 (fun h => hq1 h.symm)
            cases hf : findFolder items q1 <;> simp [hf, hsing]

/-- Inserting a fresh path makes its lookup return the stored content. -/
theorem getParts_insertPath_self (parts : List Str) :
    ∀ (c : Json) (items : List FSItem),
      parts ≠ [] → getParts items parts = none →
      getParts (insertPath parts c items) parts = some (contentToStr c) := by
  induction parts with
  | nil => intro c items hne; exact absurd rfl hne
  | cons part rest ih =>
    intro c items _ hnone
    cases rest with
    | nil =>
      simp only [getParts] at hnone
      simp only [insertPath, getParts]
      rw [findFile_append, hnone]
      simp [findFile_cons_file]
    | cons p2 rest' =>
      simp only [getParts] at hnone
      simp only [insertPath]
      by_cases hany : items.any (isFolderNamed part)
      · rw [if_pos hany]
        have hsome : (findFolder items part).isSome := by
          rw [← any_folder_iff]; exact hany
        obtain ⟨ch, hch⟩ := Option.isSome_iff_exists.mp hsome
        rw [hch] at hnone
        simp only [getParts]
        rw [findFolder_mapFirstFolder_same items part _ ch hch]
        exact ih c ch (by simp) hnone
      · rw [if_neg hany]
        have hfnone : findFolder items part = none :=
          findFolder_none_of_not_any items part hany
        simp only [getParts]
        rw [findFolder_append, hfnone]
        simp only [findFolder_singleton_folder_eq]
        exact ih c [] (by simp) (getParts_nil _)

theorem splitOn_ne_nil (sep : Char) (s : Str) : splitOn sep s ≠ [] := by
  cases s with
  | nil => simp [splitOn]
  | cons c rest =>
    simp only [splitOn]
    cases h : splitOn sep rest with
    | nil => simp
    | cons hd tl => by_cases hc : c = sep <;> simp [hc]

theorem joinOn_splitOn (sep : Char) (s : Str) :
    joinOn sep (splitOn sep s) = s := by
  induction s with
  | nil => rfl
  | cons c rest ih =>
    simp only [splitOn]
    cases h : splitOn sep rest with
    | nil => exact absurd h (splitOn_ne_nil sep rest)
    | cons hd tl =>
      rw [h] at ih
      by_cases hc : c = sep
      · simp only [if_pos hc, joinOn, hc]
        rw [ih]
        rfl
      · simp only [if_neg hc]
        cases tl with
        | nil => simp only [joinOn] at ih ⊢; rw [ih]
        | cons t2 ts => simp only [joinOn] at ih ⊢; rw [List.cons_append, ih]

theorem splitOn_injective (sep : Char) (s1 s2 : Str)
    (h : splitOn sep s1 = splitOn sep s2) : s1 = s2 := by
  have h1 := joinOn_splitOn sep s1
  have h2 := joinOn_splitOn sep s2
  rw [← h1, ← h2, h]

/-- Later insertions do not change a path's lookup if their paths differ. -/
theorem getParts_foldl_other (files : List (Str × Json)) :
    ∀ (items : List FSItem) (q : List Str),
      (∀ pc ∈ files, splitOn '/' pc.1 ≠ q) →
      getParts
        (files.foldl (fun tree pc => insertPath (splitOn '/' pc.1) pc.2 tree)
          items) q = getParts items q := by
  induction files with
  | nil => intro items q _; rfl
  | cons pc rest ih =>
    intro items q hne
    simp only [List.foldl_cons]
    rw [ih _ q (fun pc' h => hne pc' (List.mem_cons_of_mem _ h))]
    exact getParts_insertPath_other _ q pc.2 items (splitOn_ne_nil _ _)
      (fun h => hne pc (List.mem_cons_self _ _) h.symm)

/-- Folding a distinct-path file map over any tree in which those paths are
absent makes every entry readable back. -/
theorem getParts_foldl_self (files : List (Str × Json)) :
    ∀ (items : List FSItem),
      (∀ pc ∈ files, getParts items (splitOn '/' pc.1) = none) →
      (files.map (fun pc => splitOn '/' pc.1)).Pairwise (· ≠ ·) →
      ∀ pc ∈ files,
        getParts
          (files.foldl (fun tree pc => insertPath (splitOn '/' pc.1) pc.2 tree)
            items) (splitOn '/' pc.1) = some (contentToStr pc.2) := by
  induction files with
  | nil => intro items _ _ pc h; simp at h
  | cons pc0 rest ih =>
    intro items habsent hpw pc hmem
    have hpw' := List.pairwise_cons.mp hpw
    rcases List.mem_cons.mp hmem with heq | hmem'
    · subst heq
      simp only [List.foldl_cons]
      rw [getParts_foldl_other rest _ _ ?_]
      · exact getParts_insertPath_self _ pc.2 items (splitOn_ne_nil _ _)
          (habsent pc (List.mem_cons_self _ _))
      · intro pc' h' hcontra
        exact hpw'.1 (splitOn '/' pc'.1) (List.mem_map_of_mem _ h') hcontra.symm
    · simp only [List.foldl_cons]
      refine ih _ ?_ hpw'.2 pc hmem'
      intro pc' h'
      rw [getParts_insertPath_other _ _ pc0.2 items (splitOn_ne_nil _ _) ?_]
      · exact habsent pc' (List.mem_cons_of_mem _ h')
      · intro hcontra
        exact hpw'.1 (splitOn '/' pc'.1) (List.mem_map_of_mem _ h') hcontra.symm

/-! ## Theorems for C4 -/

/-- C4: materializing `{"a/b.js": "x", "a/c.js": "y"}` produces exactly one
folder `a` holding exactly the files `b.js` and `c.js`, and reading `a/b.js`
returns `x`; in general, materializing a flat map with distinct non-empty
paths makes every entry readable back at its own path (paths are split on
`/`, intermediate folders are created on demand, and same-named folders from
different paths are merged). -/
theorem createDirectoryStructure_spec :
    (createDirectoryStructure exampleFileMap =
      [FSItem.folder (strOf "a")
        [FSItem.file (strOf "b.js") (strOf "x") (strOf "javascript"),
         FSItem.file (strOf "c.js") (strOf "y") (strOf "javascript")]] ∧
     getFileContent (createDirectoryStructure exampleFileMap) (strOf "a/b.js") =
       some (strOf "x")) ∧
    (∀ files : List (Str × Json),
      (∀ pc ∈ files, pc.1 ≠ []) →
      (files.map (fun pc => pc.1)).Pairwise (· ≠ ·) →
      ∀ pc ∈ files,
        getFileContent (createDirectoryStructure files) pc.1 =
          some (contentToStr pc.2)) := by
  constructor
  · exact ⟨rfl, rfl⟩
  · intro files hne hpw pc hmem
    have hpw1 : files.Pairwise (fun a b => a.1 ≠ b.1) :=
      List.pairwise_map.mp hpw
    have hsplit : (files.map (fun pc => splitOn '/' pc.1)).Pairwise (· ≠ ·) := by
      rw [List.pairwise_map]
      exact hpw1.imp (fun h hc => h (splitOn_injective '/' _ _ hc))
    unfold getFileContent
    rw [if_neg (by simpa using hne pc hmem)]
    exact getParts_foldl_self files [] (fun pc' _ => getParts_nil _) hsplit pc hmem

/-- Witness for `createDirectoryStructure_spec`: the general round-trip
property applied to the claim's concrete map. -/
theorem createDirectoryStructure_spec_witness :
    getFileContent (createDirectoryStructure exampleFileMap) (strOf "a/c.js") =
      some (contentToStr (Json.str (strOf "y"))) :=
  createDirectoryStructure_spec.2 exampleFileMap (by decide) (by decide)
    (strOf "a/c.js", Json.str (strOf "y"))
    (List.mem_cons_of_mem _ (List.mem_cons_self _ _))

/-! ## Theorems for C5 -/

/-- C5 failing-input evaluation: when `parseCodeIntoFiles` materializes a new
tree, `findMainFile(newFileSystem)` runs while the component's `fileSystem`
state still holds the previous tree; because the candidate scan calls
`getFileContent` (which closes over that state), it returns `src/index.tsx`
from the stale tree even though the produced tree does not contain it — the
pre-order fallback over the produced tree would have returned `lib/x.js`. -/
theorem findMainFile_stale_state_eval :
    findMainFile staleStateTree producedTree = some (strOf "src/index.tsx") ∧
    getFileContent producedTree (strOf "src/index.tsx") = none ∧
    findFirstFile producedTree [] = some (strOf "lib/x.js") := by
  refine ⟨by decide, by decide, by decide⟩

/-! ## Theorems for C8 -/

/-- C8 counterexample: closing the last open tab clears the selection even
though the tree still contains a file, so the claimed fallback to the tree's
first file does not happen. -/
theorem closeFileTab_last_counterexample :
    (closeFileTab c8State (strOf "a.txt")).selectedFile = none ∧
    findFirstFile c8State.fileSystem [] = some (strOf "b.txt") ∧
    (closeFileTab c8State (strOf "a.txt")).selectedFile ≠
      findFirstFile c8State.fileSystem [] := by
  refine ⟨by decide, by decide, by decide⟩

/-- C8 (amended): the open-editor invariant (`selectedPath ∈ openPaths`
whenever `openPaths` is non-empty) is preserved by `closeFileTab`; closing the
selected path with other tabs remaining selects the first remaining open path;
and closing the last open path clears the selection (it does not fall back to
the tree's first file — the legacy `part_001` variant instead reopens the
first entry of its parsed-file map when that map is non-empty). -/
theorem closeFileTab_spec (st : EditorState) (filename : Str)
    (hinv : st.openFiles ≠ [] →
      ∃ s, st.selectedFile = some s ∧ s ∈ st.openFiles) :
    ((closeFileTab st filename).openFiles ≠ [] →
      ∃ s, (closeFileTab st filename).selectedFile = some s ∧
        s ∈ (closeFileTab st filename).openFiles) ∧
    (st.selectedFile = some filename →
      (closeFileTab st filename).openFiles ≠ [] →
      (closeFileTab st filename).selectedFile =
        (closeFileTab st filename).openFiles.head?) ∧
    ((closeFileTab st filename).openFiles = [] →
      (closeFileTab st filename).selectedFile = none) := by
  have hopen : (closeFileTab st filename).openFiles =
      st.openFiles.filter (fun f => f ≠ filename) := by
    unfold closeFileTab
    split
    · rfl
    · split
      · rfl
      · rfl
  by_cases h1 : st.selectedFile = some filename ∧
      st.openFiles.filter (fun f => f ≠ filename) ≠ []
  · have hsel : (closeFileTab st filename).selectedFile =
        (st.openFiles.filter (fun f => f ≠ filename)).head? := by
      unfold closeFileTab
      rw [if_pos h1]
    refine ⟨?_, ?_, ?_⟩
    · intro _
      obtain ⟨hd, tl, hcons⟩ := List.exists_cons_of_ne_nil h1.2
      refine ⟨hd, ?_, ?_⟩
      · rw [hsel, hcons]; rfl
      · rw [hopen, hcons]; exact List.mem_cons_self _ _
    · intro _ _
      rw [hsel, hopen]
    · intro hcontra
      rw [hopen] at hcontra
      exact absurd hcontra h1.2
  · by_cases h2 : st.openFiles.filter (fun f => f ≠ filename) = []
    · have hsel : (closeFileTab st filename).selectedFile = none := by
        unfold closeFileTab
        rw [if_neg h1, if_pos h2]
      refine ⟨?_, ?_, ?_⟩
      · intro hcontra
        rw [hopen] at hcontra
        exact absurd h2 hcontra
      · intro _ hcontra
        rw [hopen] at hcontra
        exact absurd h2 hcontra
      · intro _
        exact hsel
    · have hne1 : ¬ st.selectedFile = some filename := fun hs => h1 ⟨hs, h2⟩
      have hsel : (closeFileTab st filename).selectedFile = st.selectedFile := by
        unfold closeFileTab
        rw [if_neg h1, if_neg h2]
      refine ⟨?_, ?_, ?_⟩
      · intro _
        have hne_open : st.openFiles ≠ [] := by
          intro h
          rw [h] at h2
          exact h2 rfl
        obtain ⟨s, hs, hmem⟩ := hinv hne_open
        refine ⟨s, by rw [hsel]; exact hs, ?_⟩
        rw [hopen]
        refine List.mem_filter.mpr ⟨hmem, ?_⟩
        simp only [decide_eq_true_eq]
        intro hcontra
        rw [hcontra] at hs
        exact hne1 hs
      · intro hs
        exact absurd hs hne1
      · intro hcontra
        rw [hopen] at hcontra
        exact absurd hcontra h2

/-- Witness for `closeFileTab_spec`: closing a non-selected tab keeps the
selected one; the invariant survives. -/
theorem closeFileTab_spec_witness :
    ∃ s, (closeFileTab
        { selectedFile := some (strOf "a.txt")
          openFiles := [strOf "a.txt", strOf "b.txt"]
          unsavedChanges := []
          currentFileContent := []
          fileSystem := [] } (strOf "b.txt")).selectedFile = some s ∧
      s ∈ (closeFileTab
        { selectedFile := some (strOf "a.txt")
          openFiles := [strOf "a.txt", strOf "b.txt"]
          unsavedChanges := []
          currentFileContent := []
          fileSystem := [] } (strOf "b.txt")).openFiles :=
  (closeFileTab_spec
    { selectedFile := some (strOf "a.txt")
      openFiles := [strOf "a.txt", strOf "b.txt"]
      unsavedChanges := []
      currentFileContent := []
      fileSystem := [] } (strOf "b.txt")
    (fun _ => ⟨strOf "a.txt", rfl, List.mem_cons_self _ _⟩)).1 (by decide)

end AppSpec

namespace AppSpec

/-! ## Scanner lemmas (for C2, C7) -/

theorem fenceSplit?_nil : fenceSplit? [] = none := rfl

theorem fenceSplit?_one (c : Char) : fenceSplit? [c] = none := rfl

theorem fenceSplit?_two (c1 c2 : Char) : fenceSplit? [c1, c2] = none := rfl

theorem fenceSplit?_first_ne (c : Char) (u : Str) (h : c ≠ '`') :
    fenceSplit? (c :: u) = none := by
  match u with
  | [] => rfl
  | [c2] => rfl
  | c2 :: c3 :: t => simp [fenceSplit?, h]

theorem fenceSplit?_second_ne (c1 c2 : Char) (u : Str) (h : c2 ≠ '`') :
    fenceSplit? (c1 :: c2 :: u) = none := by
  match u with
  | [] => rfl
  | c3 :: t => simp [fenceSplit?, h]

theorem fenceSplit?_third_ne (c1 c2 c3 : Char) (u : Str) (h : c3 ≠ '`') :
    fenceSplit? (c1 :: c2 :: c3 :: u) = none := by
  simp [fenceSplit?, h]

theorem fenceSplit?_fence (t : Str) : fenceSplit? (fence3 ++ t) = some t := by
  simp [fence3, fenceSplit?]

theorem lazyFence_clean_append (v : Str) (w : Str) (hv : '`' ∉ v) :
    lazyFence (v ++ (fence3 ++ w)) = some w := by
  induction v with
  | nil =>
    show lazyFence ('`' :: '`' :: '`' :: w) = some w
    simp [lazyFence, fenceSplit?]
  | cons c v' ih =>
    have hc : c ≠ '`' := fun h => hv (by rw [h]; exact List.mem_cons_self _ _)
    have hv' : '`' ∉ v' := fun h => hv (List.mem_cons_of_mem _ h)
    show lazyFence (c :: (v' ++ (fence3 ++ w))) = some w
    unfold lazyFence
    rw [fenceSplit?_first_ne c _ hc]
    exact ih hv'

theorem lazyFenceSplit_clean_append (v : Str) (w : Str) (hv : '`' ∉ v) :
    lazyFenceSplit (v ++ (fence3 ++ w)) = some (v ++ fence3, w) := by
  induction v with
  | nil =>
    show lazyFenceSplit ('`' :: '`' :: '`' :: w) = some ([] ++ fence3, w)
    simp [lazyFenceSplit, fenceSplit?, fence3]
  | cons c v' ih =>
    have hc : c ≠ '`' := fun h => hv (by rw [h]; exact List.mem_cons_self _ _)
    have hv' : '`' ∉ v' := fun h => hv (List.mem_cons_of_mem _ h)
    show lazyFenceSplit (c :: (v' ++ (fence3 ++ w))) = some (c :: (v' ++ fence3), w)
    unfold lazyFenceSplit
    rw [fenceSplit?_first_ne c _ hc, ih hv']

theorem nonWsRun_label (l : Str) (z : Str) (hl : ∀ ch ∈ l, isWs ch = false) :
    nonWsRun (l ++ '\n' :: z) = l := by
  induction l with
  | nil =>
    show nonWsRun ('\n' :: z) = []
    simp [nonWsRun, List.takeWhile_cons, show isWs '\n' = true from rfl]
  | cons c l' ih =>
    have hc := hl c (List.mem_cons_self _ _)
    have hl' : ∀ ch ∈ l', isWs ch = false :=
      fun ch h => hl ch (List.mem_cons_of_mem _ h)
    show nonWsRun (c :: (l' ++ '\n' :: z)) = c :: l'
    simp only [nonWsRun, List.takeWhile_cons, hc]
    simp only [nonWsRun] at ih
    simp [ih hl']

theorem greedyTry_of_lazyFence (t : Str) (k : Nat) (u : Str)
    (h : lazyFence (t.drop k) = some u) : greedyTry t k = some u := by
  cases k with
  | zero => simpa [greedyTry] using h
  | succ k' => simp [greedyTry, h]

theorem greedyTrySplit_of_lazyFenceSplit (t : Str) (k : Nat) (a rest : Str)
    (h : lazyFenceSplit (t.drop k) = some (a, rest)) :
    greedyTrySplit t k = some (t.take k ++ a, rest) := by
  cases k with
  | zero => simpa [greedyTrySplit] using h
  | succ k' => simp [greedyTrySplit, h]

theorem prefix_append_split (lit : Str) :
    ∀ (t X : Str), lit.isPrefixOf (t ++ X) = true →
      lit.isPrefixOf t = true ∨
      (t.isPrefixOf lit = true ∧ (lit.drop t.length).isPrefixOf X = true) := by
  induction lit with
  | nil => intro t X _; left; simp [List.isPrefixOf]
  | cons a lit' ih =>
    intro t X h
    cases t with
    | nil =>
      right
      exact ⟨by simp [List.isPrefixOf], by simpa using h⟩
    | cons b t' =>
      rw [List.cons_append] at h
      rw [List.isPrefixOf_cons₂] at h
      rcases (Bool.and_eq_true _ _).mp h with ⟨hab, h'⟩
      rcases ih t' X h' with h1 | ⟨h2, h3⟩
      · left
        rw [List.isPrefixOf_cons₂]
        simp [hab, h1]
      · right
        refine ⟨?_, ?_⟩
        · rw [List.isPrefixOf_cons₂]
          have hba : (b == a) = true := by
            have := eq_of_beq hab
            simp [this]
          simp [hba, h2]
        · simpa using h3

theorem render_nil : render [] = [] := rfl

theorem render_cons_text (t : Str) (rest : List Piece) :
    render (Piece.text t :: rest) = t ++ render rest := by
  simp [render, renderPiece]

theorem render_cons_block (l c : Str) (rest : List Piece) :
    render (Piece.block l c :: rest) = fence3 ++ blockBody l c (render rest) := by
  simp [render, renderPiece, blockBody]

theorem concatTexts_nil : concatTexts [] = [] := rfl

theorem concatTexts_cons_text (t : Str) (rest : List Piece) :
    concatTexts (Piece.text t :: rest) = t ++ concatTexts rest := by
  simp [concatTexts]

theorem concatTexts_cons_block (l c : Str) (rest : List Piece) :
    concatTexts (Piece.block l c :: rest) = concatTexts rest := by
  simp [concatTexts]

theorem isPrefixOf_self (l : Str) : l.isPrefixOf l = true :=
  List.isPrefixOf_iff_prefix.mpr (List.prefix_refl l)

theorem not_prefix_append_newline (lit t X : Str) (hnl : '\n' ∉ lit)
    (h : ¬ lit.isPrefixOf t = true) :
    ¬ lit.isPrefixOf (t ++ '\n' :: X) = true := by
  intro hc
  rcases prefix_append_split lit t ('\n' :: X) hc with h1 | ⟨h2, h3⟩
  · exact h h1
  · cases hd : lit.drop t.length with
    | nil =>
      have hlen : lit.length ≤ t.length := List.drop_eq_nil_iff.mp hd
      have hpre : t <+: lit := List.isPrefixOf_iff_prefix.mp h2
      have : t = lit := hpre.eq_of_length_le hlen
      subst this
      exact h (isPrefixOf_self t)
    | cons d ds =>
      rw [hd, List.isPrefixOf_cons₂] at h3
      rcases (Bool.and_eq_true _ _).mp h3 with ⟨hdnl, _⟩
      have hdm : d ∈ lit := List.mem_of_mem_drop (hd ▸ List.mem_cons_self d ds)
      rw [eq_of_beq hdnl] at hdm
      exact hnl hdm

theorem blockBody_shape (l c u : Str) :
    blockBody l c u = l ++ '\n' :: (c ++ '\n' :: (fence3 ++ u)) := rfl

theorem lazyFence_block_tail (lt c u : Str) (hlt : '`' ∉ lt) (hc : '`' ∉ c) :
    lazyFence (lt ++ '\n' :: (c ++ '\n' :: (fence3 ++ u))) = some u := by
  have hshape : lt ++ '\n' :: (c ++ '\n' :: (fence3 ++ u)) =
      (lt ++ '\n' :: (c ++ ['\n'])) ++ (fence3 ++ u) := by
    simp
  rw [hshape]
  refine lazyFence_clean_append _ _ ?_
  intro hmem
  rcases List.mem_append.mp hmem with h1 | h2
  · exact hlt h1
  · rcases List.mem_cons.mp h2 with h3 | h4
    · exact absurd h3 (by decide)
    · rcases List.mem_append.mp h4 with h5 | h6
      · exact hc h5
      · rcases List.mem_cons.mp h6 with h7 | h8
        · exact absurd h7 (by decide)
        · simp at h8

theorem textLit_branch (lit l c u : Str) (hnl : '\n' ∉ lit)
    (hlbt : '`' ∉ l) (hcbt : '`' ∉ c) :
    (if lit.isPrefixOf (blockBody l c u) then
       lazyFence ((blockBody l c u).drop lit.length)
     else none) = none ∨
    (if lit.isPrefixOf (blockBody l c u) then
       lazyFence ((blockBody l c u).drop lit.length)
     else none) = some u := by
  by_cases hp : lit.isPrefixOf (blockBody l c u) = true
  · right
    rw [if_pos hp]
    rw [blockBody_shape] at hp
    have hlitl : lit.isPrefixOf l = true := by
      rcases prefix_append_split lit l _ hp with h1 | ⟨h2, h3⟩
      · exact h1
      · cases hd : lit.drop l.length with
        | nil =>
          have hlen : lit.length ≤ l.length := List.drop_eq_nil_iff.mp hd
          have hpre : l <+: lit := List.isPrefixOf_iff_prefix.mp h2
          have : l = lit := hpre.eq_of_length_le hlen
          rw [← this]
          exact isPrefixOf_self l
        | cons d ds =>
          rw [hd, List.isPrefixOf_cons₂] at h3
          rcases (Bool.and_eq_true _ _).mp h3 with ⟨hdnl, _⟩
          have hdm : d ∈ lit := List.mem_of_mem_drop (hd ▸ List.mem_cons_self d ds)
          rw [eq_of_beq hdnl] at hdm
          exact absurd hdm hnl
    obtain ⟨l2, hl2⟩ := List.isPrefixOf_iff_prefix.mp hlitl
    have hdrop : (blockBody l c u).drop lit.length =
        l2 ++ '\n' :: (c ++ '\n' :: (fence3 ++ u)) := by
      rw [blockBody_shape, ← hl2]
      rw [List.append_assoc]
      exact List.drop_left lit _
    rw [hdrop]
    refine lazyFence_block_tail l2 c u ?_ hcbt
    intro hmem
    exact hlbt (hl2 ▸ List.mem_append.mpr (Or.inr hmem))
  · left
    rw [if_neg hp]

theorem tryLits_res (t u : Str) :
    ∀ ls : List Str,
      (∀ lit ∈ ls,
        (if lit.isPrefixOf t then lazyFence (t.drop lit.length) else none) = none ∨
        (if lit.isPrefixOf t then lazyFence (t.drop lit.length) else none) = some u) →
      tryLits ls t = none ∨ tryLits ls t = some u := by
  intro ls
  induction ls with
  | nil => intro _; left; rfl
  | cons lit ls' ih =>
    intro h
    have hrec := ih (fun l hl => h l (List.mem_cons_of_mem _ hl))
    rcases h lit (List.mem_cons_self _ _) with h1 | h1
    · unfold tryLits
      rw [h1]
      exact hrec
    · right
      unfold tryLits
      rw [h1]

theorem matchTextBlock_block (l c u : Str) (_hlne : l ≠ [])
    (hl : ∀ ch ∈ l, isWs ch = false ∧ ch ≠ '`') (hcbt : '`' ∉ c) :
    matchTextBlock (blockBody l c u) = some u := by
  have hlbt : '`' ∉ l := fun hm => (hl _ hm).2 rfl
  have hrun : nonWsRun (blockBody l c u) = l := by
    rw [blockBody_shape]
    exact nonWsRun_label l _ (fun ch hm => (hl ch hm).1)
  have hgreedy : greedyTry (blockBody l c u) l.length = some u := by
    refine greedyTry_of_lazyFence _ _ _ ?_
    rw [blockBody_shape, List.drop_left]
    have hshape : ('\n' : Char) :: (c ++ '\n' :: (fence3 ++ u)) =
        ([] : Str) ++ '\n' :: (c ++ '\n' :: (fence3 ++ u)) := by simp
    rw [hshape]
    exact lazyFence_block_tail [] c u (by simp) hcbt
  have hlits := tryLits_res (blockBody l c u) u textLits ?_
  · unfold matchTextBlock
    rcases hlits with h1 | h1 <;> rw [h1]
    · rw [hrun]
      exact hgreedy
  · intro lit hm
    refine textLit_branch lit l c u ?_ hlbt hcbt
    have : ∀ lit ∈ textLits, '\n' ∉ lit := by decide
    exact this lit hm

theorem stripTextGo_nil (fuel : Nat) : stripTextBlocksGo fuel [] = [] := by
  cases fuel <;> rfl

theorem stripTextGo_step (fuel : Nat) (c : Char) (u : Str) (hc : c ≠ '`') :
    stripTextBlocksGo (fuel + 1) (c :: u) = c :: stripTextBlocksGo fuel u := by
  conv_lhs => unfold stripTextBlocksGo
  rw [fenceSplit?_first_ne c u hc]

theorem stripTextGo_fence (fuel : Nat) (body rest : Str)
    (h : matchTextBlock body = some rest) :
    stripTextBlocksGo (fuel + 1) ('`' :: '`' :: '`' :: body) =
      stripTextBlocksGo fuel rest := by
  conv_lhs => unfold stripTextBlocksGo
  rw [show fenceSplit? ('`' :: '`' :: '`' :: body) = some body from
    fenceSplit?_fence body]
  simp only [h]

theorem stripTextGo_clean (t : Str) :
    ∀ (fuel : Nat) (u : Str), '`' ∉ t →
      stripTextBlocksGo (t.length + fuel) (t ++ u) = t ++ stripTextBlocksGo fuel u := by
  induction t with
  | nil => intro fuel u _; simp
  | cons c t' ih =>
    intro fuel u hbt
    have hc : c ≠ '`' := fun h => hbt (by rw [h]; exact List.mem_cons_self _ _)
    have hbt' : '`' ∉ t' := fun h => hbt (List.mem_cons_of_mem _ h)
    have harith : (c :: t').length + fuel = (t'.length + fuel) + 1 := by
      simp [Nat.succ_add]
    rw [harith, List.cons_append]
    rw [stripTextGo_step _ c _ hc]
    rw [ih fuel u hbt']
    rfl

theorem stripTextGo_render (ps : List Piece) :
    ∀ fuel : Nat, (∀ p ∈ ps, pieceWF p) → (render ps).length ≤ fuel →
      stripTextBlocksGo fuel (render ps) = concatTexts ps := by
  induction ps with
  | nil => intro fuel _ _; rw [render_nil, stripTextGo_nil, concatTexts_nil]
  | cons p rest ih =>
    intro fuel hwf hfuel
    have hwfrest : ∀ q ∈ rest, pieceWF q := fun q hq => hwf q (List.mem_cons_of_mem _ hq)
    cases p with
    | text t =>
      rcases hwf (Piece.text t) (List.mem_cons_self _ _) with ⟨hne, hbt, hmer⟩
      rw [render_cons_text] at hfuel ⊢
      rw [concatTexts_cons_text]
      have hlen : t.length ≤ fuel := by
        rw [List.length_append] at hfuel; omega
      have harith : fuel = t.length + (fuel - t.length) := by omega
      rw [harith, stripTextGo_clean t _ _ hbt]
      congr 1
      refine ih (fuel - t.length) hwfrest ?_
      rw [List.length_append] at hfuel; omega
    | block l c =>
      rcases hwf (Piece.block l c) (List.mem_cons_self _ _) with
        ⟨hlne, hlch, hcne, hcbt, hch, hcl⟩
      rw [render_cons_block] at hfuel ⊢
      rw [concatTexts_cons_block]
      have hlenpos : 1 + (render rest).length ≤ fuel := by
        rw [List.length_append] at hfuel
        have : (render rest).length < (blockBody l c (render rest)).length := by
          rw [blockBody_shape]
          simp [List.length_append]
          omega
        simp [fence3] at hfuel
        omega
      obtain ⟨f, rfl⟩ : ∃ f, fuel = f + 1 := by
        cases fuel with
        | zero => omega
        | succ f => exact ⟨f, rfl⟩
      show stripTextBlocksGo (f + 1)
        ('`' :: '`' :: '`' :: blockBody l c (render rest)) = _
      rw [stripTextGo_fence f _ (render rest)
        (matchTextBlock_block l c (render rest) hlne hlch hcbt)]
      exact ih f hwfrest (by omega)

theorem stripTextBlocks_render (ps : List Piece) (h : ∀ p ∈ ps, pieceWF p) :
    stripTextBlocks (render ps) = concatTexts ps :=
  stripTextGo_render ps (render ps).length h (Nat.le_refl _)

theorem trimStr_infix (s : Str) : trimStr s <:+: s := by
  unfold trimStr
  have h1 : s.dropWhile isWs <:+ s := List.dropWhile_suffix isWs
  have h2 : ((s.dropWhile isWs).reverse.dropWhile isWs).reverse <+:
      s.dropWhile isWs := by
    rw [← List.reverse_suffix]
    simpa using List.dropWhile_suffix (l := (s.dropWhile isWs).reverse) isWs
  exact h2.isInfix.trans h1.isInfix

theorem render_eq_nil_concat (ps : List Piece) (h : render ps = []) :
    concatTexts ps = [] := by
  induction ps with
  | nil => rfl
  | cons p rest ih =>
    cases p with
    | text t =>
      rw [render_cons_text] at h
      rcases List.append_eq_nil.mp h with ⟨h1, h2⟩
      rw [concatTexts_cons_text, h1, ih h2]
      rfl
    | block l c =>
      rw [render_cons_block] at h
      exact absurd h (by simp [fence3])

/-- With all fenced blocks well formed, text extraction returns exactly the
trimmed prose whenever that is non-empty. -/
theorem extractTextOnly_render (ps : List Piece) (hwf : ∀ p ∈ ps, pieceWF p)
    (hne : trimStr (concatTexts ps) ≠ []) :
    extractTextOnly (render ps) = trimStr (concatTexts ps) := by
  have hstrip := stripTextBlocks_render ps hwf
  have hrne : render ps ≠ [] := by
    intro h
    rw [render_eq_nil_concat ps h] at hne
    exact hne rfl
  unfold extractTextOnly
  rw [if_neg hrne, hstrip, if_neg hne]

/-- C7: for a non-empty raw completion whose block-stripped text trims to
empty, text extraction returns the trimmed first paragraph (the text up to
the first double newline) when that paragraph is fence-free, and the empty
string otherwise. -/
theorem extractTextOnly_fallback_spec (s : Str) (h1 : s ≠ [])
    (h2 : trimStr (stripTextBlocks s) = []) :
    extractTextOnly s =
      if hasSub (trimStr (upToDoubleNl s)) fence3 then []
      else trimStr (upToDoubleNl s) := by
  unfold extractTextOnly
  rw [if_neg h1, if_pos h2]
  by_cases hfence : hasSub (trimStr (upToDoubleNl s)) fence3 = true
  · rw [if_pos hfence]
    have : ¬ (trimStr (upToDoubleNl s) ≠ [] ∧
        ¬ hasSub (trimStr (upToDoubleNl s)) fence3 = true) := by
      intro hc
      exact hc.2 hfence
    rw [if_neg this]
    exact h2
  · rw [if_neg hfence]
    by_cases hfp : trimStr (upToDoubleNl s) = []
    · have : ¬ (trimStr (upToDoubleNl s) ≠ [] ∧
          ¬ hasSub (trimStr (upToDoubleNl s)) fence3 = true) := by
        intro hc
        exact hc.1 hfp
      rw [if_neg this, h2, hfp]
    · rw [if_pos ⟨hfp, hfence⟩]

/-- Witness for `extractTextOnly_fallback_spec`: a completion that is one
fenced block surrounded by whitespace strips to empty; its first paragraph
contains the fence marker, so extraction returns the empty string. -/
theorem extractTextOnly_fallback_spec_witness :
    extractTextOnly (strOf " \n```js\nx\n``` ") = [] := by
  rw [extractTextOnly_fallback_spec (strOf " \n```js\nx\n``` ")
    (by decide) (by decide)]
  decide

theorem isPrefixOf_cons_head (a b : Char) (as bs : Str)
    (h : (a :: as).isPrefixOf (b :: bs) = true) : a = b := by
  rw [List.isPrefixOf_cons₂] at h
  exact eq_of_beq ((Bool.and_eq_true _ _).mp h).1

theorem mermaid_not_prefix_backtick (v : Str) :
    ¬ (strOf "mermaid").isPrefixOf ('`' :: v) = true := by
  intro h
  rw [show strOf "mermaid" = 'm' :: strOf "ermaid" from rfl] at h
  exact absurd (isPrefixOf_cons_head _ _ _ _ h) (by decide)

theorem noAdjTexts_tail (p : Piece) (rest : List Piece)
    (h : noAdjTexts (p :: rest) = true) : noAdjTexts rest = true := by
  cases p with
  | text t =>
    cases rest with
    | nil => rfl
    | cons q rest' =>
      cases q with
      | text t2 => exact absurd h (by simp [noAdjTexts])
      | block l c => simpa [noAdjTexts] using h
  | block l c => simpa [noAdjTexts] using h

theorem text_head_rest (t : Str) (rest : List Piece)
    (h : noAdjTexts (Piece.text t :: rest) = true) :
    rest = [] ∨ ∃ l c rest', rest = Piece.block l c :: rest' := by
  cases rest with
  | nil => exact Or.inl rfl
  | cons q rest' =>
    cases q with
    | text t2 => exact absurd h (by simp [noAdjTexts])
    | block l c => exact Or.inr ⟨l, c, rest', rfl⟩

theorem mermaid_not_prefix_render (ps : List Piece)
    (hall : ∀ p ∈ ps, pieceWF p) (hadj : noAdjTexts ps = true) :
    ¬ (strOf "mermaid").isPrefixOf (render ps) = true := by
  cases ps with
  | nil =>
    rw [render_nil]
    decide
  | cons p rest =>
    cases p with
    | text t =>
      rcases hall (Piece.text t) (List.mem_cons_self _ _) with ⟨htne, hbt, hmer⟩
      rw [render_cons_text]
      intro hc
      rcases prefix_append_split _ t _ hc with h1 | ⟨h2, h3⟩
      · exact hmer h1
      · cases hd : (strOf "mermaid").drop t.length with
        | nil =>
          have hlen : (strOf "mermaid").length ≤ t.length :=
            List.drop_eq_nil_iff.mp hd
          have hpre : t <+: strOf "mermaid" := List.isPrefixOf_iff_prefix.mp h2
          have : t = strOf "mermaid" := hpre.eq_of_length_le hlen
          exact hmer (this ▸ isPrefixOf_self t)
        | cons d ds =>
          rw [hd] at h3
          have hdm : d ∈ strOf "mermaid" :=
            List.mem_of_mem_drop (hd ▸ List.mem_cons_self d ds)
          rcases text_head_rest t rest hadj with hnil | ⟨l, c, rest', hblk⟩
          · rw [hnil, render_nil] at h3
            simp [List.isPrefixOf] at h3
          · rw [hblk, render_cons_block] at h3
            have : d = '`' := isPrefixOf_cons_head _ _ _ _ h3
            rw [this] at hdm
            exact absurd hdm (by decide)
    | block l c =>
      rw [render_cons_block]
      exact mermaid_not_prefix_backtick _

theorem render_shape (ps : List Piece) (hall : ∀ p ∈ ps, pieceWF p) :
    render ps = [] ∨
    (∃ c0 u, render ps = c0 :: u ∧ c0 ≠ '`') ∨
    (∃ v, render ps = '`' :: '`' :: '`' :: v) := by
  cases ps with
  | nil => exact Or.inl render_nil
  | cons p rest =>
    cases p with
    | text t =>
      rcases hall (Piece.text t) (List.mem_cons_self _ _) with ⟨htne, hbt, _⟩
      cases t with
      | nil => exact absurd rfl htne
      | cons c0 t' =>
        refine Or.inr (Or.inl ⟨c0, t' ++ render rest, ?_, ?_⟩)
        · rw [render_cons_text]; rfl
        · exact fun h => hbt (h ▸ List.mem_cons_self _ _)
    | block l c =>
      refine Or.inr (Or.inr ⟨blockBody l c (render rest), ?_⟩)
      rw [render_cons_block]; rfl

theorem rmGo_nil (fuel : Nat) : removeMermaidGo fuel [] = [] := by
  cases fuel <;> rfl

theorem rmGo_emit (fuel : Nat) (c : Char) (u : Str)
    (h : fenceSplit? (c :: u) = none) :
    removeMermaidGo (fuel + 1) (c :: u) = c :: removeMermaidGo fuel u := by
  conv_lhs => unfold removeMermaidGo
  rw [h]

theorem rmGo_fence_stay (fuel : Nat) (t : Str)
    (h : ¬ (strOf "mermaid").isPrefixOf t = true) :
    removeMermaidGo (fuel + 1) ('`' :: '`' :: '`' :: t) =
      '`' :: removeMermaidGo fuel ('`' :: '`' :: t) := by
  conv_lhs => unfold removeMermaidGo
  rw [show fenceSplit? ('`' :: '`' :: '`' :: t) = some t from fenceSplit?_fence t]
  simp only [h, if_neg, Bool.not_eq_true]

theorem rmGo_fence_skip (fuel : Nat) (t rest : Str)
    (h1 : (strOf "mermaid").isPrefixOf t = true)
    (h2 : lazyFence (t.drop 7) = some rest) :
    removeMermaidGo (fuel + 1) ('`' :: '`' :: '`' :: t) =
      removeMermaidGo fuel rest := by
  conv_lhs => unfold removeMermaidGo
  rw [show fenceSplit? ('`' :: '`' :: '`' :: t) = some t from fenceSplit?_fence t]
  simp only [h1, eq_self_iff_true, if_true, h2]

theorem rmGo_clean (t : Str) :
    ∀ (fuel : Nat) (u : Str), '`' ∉ t →
      removeMermaidGo (t.length + fuel) (t ++ u) = t ++ removeMermaidGo fuel u := by
  induction t with
  | nil => intro fuel u _; simp
  | cons c t' ih =>
    intro fuel u hbt
    have hc : c ≠ '`' := fun h => hbt (by rw [h]; exact List.mem_cons_self _ _)
    have hbt' : '`' ∉ t' := fun h => hbt (List.mem_cons_of_mem _ h)
    have harith : (c :: t').length + fuel = (t'.length + fuel) + 1 := by
      simp [Nat.succ_add]
    rw [harith, List.cons_append]
    rw [rmGo_emit _ c _ (fenceSplit?_first_ne c _ hc)]
    rw [ih fuel u hbt']
    rfl

theorem rmGo_closer (u : Str) (fuel : Nat)
    (h1 : ¬ (strOf "mermaid").isPrefixOf u = true)
    (hshape : u = [] ∨ (∃ c0 u', u = c0 :: u' ∧ c0 ≠ '`') ∨
      (∃ v, u = '`' :: '`' :: '`' :: v)) :
    removeMermaidGo (3 + fuel) ('`' :: '`' :: '`' :: u) =
      '`' :: '`' :: '`' :: removeMermaidGo fuel u := by
  have hstep1 : removeMermaidGo (3 + fuel) ('`' :: '`' :: '`' :: u) =
      '`' :: removeMermaidGo (2 + fuel) ('`' :: '`' :: u) := by
    rw [show 3 + fuel = (2 + fuel) + 1 by omega]
    exact rmGo_fence_stay _ u h1
  rw [hstep1]
  rcases hshape with hnil | ⟨c0, u', hcons, hc0⟩ | ⟨v, hfv⟩
  · subst hnil
    rw [show 2 + fuel = (1 + fuel) + 1 by omega,
      rmGo_emit _ '`' _ (fenceSplit?_two '`' '`'),
      show 1 + fuel = fuel + 1 by omega,
      rmGo_emit _ '`' _ (fenceSplit?_one '`')]
  · subst hcons
    rw [show 2 + fuel = (1 + fuel) + 1 by omega,
      rmGo_emit _ '`' _ (fenceSplit?_third_ne '`' '`' c0 u' hc0),
      show 1 + fuel = fuel + 1 by omega,
      rmGo_emit _ '`' _ (fenceSplit?_second_ne '`' c0 u' hc0)]
  · subst hfv
    rw [show 2 + fuel = (1 + fuel) + 1 by omega]
    rw [show ('`' :: '`' :: '`' :: '`' :: '`' :: v) =
      '`' :: '`' :: '`' :: ('`' :: '`' :: v) from rfl]
    rw [rmGo_fence_stay _ _ (mermaid_not_prefix_backtick _)]
    rw [show 1 + fuel = fuel + 1 by omega]
    rw [show ('`' :: '`' :: '`' :: '`' :: v) =
      '`' :: '`' :: '`' :: ('`' :: v) from rfl]
    rw [rmGo_fence_stay _ _ (mermaid_not_prefix_backtick _)]

theorem removeMermaid_render_go :
    ∀ (ps : List Piece), piecesWF ps →
    ∀ fuel, (render ps).length ≤ fuel →
      removeMermaidGo fuel (render ps) =
        render (ps.filter (fun p => !isDiagram p)) := by
  intro ps
  induction ps with
  | nil =>
    intro _ fuel _
    rw [render_nil, rmGo_nil]
    rfl
  | cons p rest ih =>
    intro hwf fuel hfuel
    obtain ⟨hall, hadj⟩ := hwf
    have hall' : ∀ q ∈ rest, pieceWF q :=
      fun q hq => hall q (List.mem_cons_of_mem _ hq)
    have hadj' : noAdjTexts rest = true := noAdjTexts_tail p rest hadj
    have ih' := ih ⟨hall', hadj'⟩
    cases p with
    | text t =>
      rcases hall (Piece.text t) (List.mem_cons_self _ _) with ⟨htne, hbt, _⟩
      rw [render_cons_text] at hfuel ⊢
      have hlen : t.length + (render rest).length ≤ fuel := by
        simpa using hfuel
      obtain ⟨f, hf, hfr⟩ : ∃ f, fuel = t.length + f ∧ (render rest).length ≤ f :=
        ⟨fuel - t.length, by omega, by omega⟩
      rw [hf, rmGo_clean t f (render rest) hbt, ih' f hfr]
      have hfil : (Piece.text t :: rest).filter (fun p => !isDiagram p) =
          Piece.text t :: rest.filter (fun p => !isDiagram p) := by
        simp [isDiagram]
      rw [hfil, render_cons_text]
    | block l c =>
      rcases hall (Piece.block l c) (List.mem_cons_self _ _) with
        ⟨hlne, hlch, hcne, hcbt, hch, hcl⟩
      rw [render_cons_block] at hfuel ⊢
      have hblen : (blockBody l c (render rest)).length =
          l.length + c.length + (render rest).length + 5 := by
        rw [blockBody_shape]
        simp [fence3]
        omega
      have hfuel' : l.length + c.length + (render rest).length + 8 ≤ fuel := by
        rw [List.length_append, hblen] at hfuel
        have h3 : fence3.length = 3 := rfl
        omega
      by_cases hdg : (strOf "mermaid").isPrefixOf l = true
      · obtain ⟨l2, hl2⟩ : ∃ l2, strOf "mermaid" ++ l2 = l :=
          List.isPrefixOf_iff_prefix.mp hdg
        obtain ⟨f, hf⟩ : ∃ f, fuel = f + 1 := ⟨fuel - 1, by omega⟩
        have hfr : (render rest).length ≤ f := by omega
        have h1 : (strOf "mermaid").isPrefixOf (blockBody l c (render rest)) = true := by
          rw [List.isPrefixOf_iff_prefix, blockBody_shape]
          exact (List.isPrefixOf_iff_prefix.mp hdg).trans (List.prefix_append _ _)
        have h2 : lazyFence ((blockBody l c (render rest)).drop 7) =
            some (render rest) := by
          have hshape : blockBody l c (render rest) =
              strOf "mermaid" ++
                (l2 ++ '\n' :: (c ++ '\n' :: (fence3 ++ render rest))) := by
            rw [blockBody_shape, ← hl2]
            simp
          rw [hshape, show (7 : Nat) = (strOf "mermaid").length from rfl,
            List.drop_left]
          refine lazyFence_block_tail l2 c (render rest) ?_ hcbt
          intro hm
          have hml : '`' ∈ l := hl2 ▸ List.mem_append_right _ hm
          exact (hlch '`' hml).2 rfl
        rw [hf, show fence3 ++ blockBody l c (render rest) =
          '`' :: '`' :: '`' :: blockBody l c (render rest) from rfl]
        rw [rmGo_fence_skip f _ _ h1 h2, ih' f hfr]
        have hfil : (Piece.block l c :: rest).filter (fun p => !isDiagram p) =
            rest.filter (fun p => !isDiagram p) := by
          simp [isDiagram, hdg]
        rw [hfil]
      · set v : Str := l ++ '\n' :: (c ++ ['\n']) with hv
        have hvbt : '`' ∉ v := by
          intro hm
          rw [hv] at hm
          rcases List.mem_append.mp hm with h1 | h2
          · exact (hlch '`' h1).2 rfl
          · rcases List.mem_cons.mp h2 with h3 | h4
            · exact absurd h3 (by decide)
            · rcases List.mem_append.mp h4 with h5 | h6
              · exact hcbt h5
              · rcases List.mem_cons.mp h6 with h7 | h8
                · exact absurd h7 (by decide)
                · simp at h8
        have hvlen : v.length = l.length + c.length + 2 := by
          rw [hv]
          simp
          omega
        have hbody : blockBody l c (render rest) =
            v ++ ('`' :: '`' :: '`' :: render rest) := by
          rw [blockBody_shape, hv]
          simp [fence3]
        obtain ⟨f, hfuel_eq, hfr⟩ :
            ∃ f, fuel = (((v.length + (3 + f)) + 1) + 1) + 1 ∧
              (render rest).length ≤ f :=
          ⟨fuel - v.length - 6, by omega, by omega⟩
        have hnm : ¬ (strOf "mermaid").isPrefixOf (blockBody l c (render rest)) = true := by
          rw [blockBody_shape]
          exact not_prefix_append_newline _ l _ (by decide) hdg
        obtain ⟨l0, l', hl0⟩ : ∃ l0 l', l = l0 :: l' := by
          cases l with
          | nil => exact absurd rfl hlne
          | cons a b => exact ⟨a, b, rfl⟩
        have hl0bt : l0 ≠ '`' := (hlch l0 (hl0 ▸ List.mem_cons_self _ _)).2
        rw [hfuel_eq, show fence3 ++ blockBody l c (render rest) =
          '`' :: '`' :: '`' :: blockBody l c (render rest) from rfl]
        rw [rmGo_fence_stay _ _ hnm]
        have hbody' : blockBody l c (render rest) =
            l0 :: (l' ++ '\n' :: (c ++ '\n' :: (fence3 ++ render rest))) := by
          rw [blockBody_shape, hl0]
          rfl
        rw [hbody']
        rw [rmGo_emit _ '`' _ (fenceSplit?_third_ne '`' '`' l0 _ hl0bt)]
        rw [rmGo_emit _ '`' _ (fenceSplit?_second_ne '`' l0 _ hl0bt)]
        rw [← hbody', hbody]
        rw [rmGo_clean v (3 + f) _ hvbt]
        rw [rmGo_closer (render rest) f
          (mermaid_not_prefix_render rest hall' hadj') (render_shape rest hall')]
        rw [ih' f hfr]
        have hfil : (Piece.block l c :: rest).filter (fun p => !isDiagram p) =
            Piece.block l c :: rest.filter (fun p => !isDiagram p) := by
          simp [isDiagram, hdg]
        rw [hfil, render_cons_block, blockBody_shape, hv]
        simp [fence3]

theorem removeMermaid_render (ps : List Piece) (hwf : piecesWF ps) :
    removeMermaid (render ps) = render (ps.filter (fun p => !isDiagram p)) :=
  removeMermaid_render_go ps hwf (render ps).length (Nat.le_refl _)

theorem ecGo_nil (fuel : Nat) : extractCodeGo fuel [] = [] := by
  cases fuel <;> rfl

theorem ecGo_emit (fuel : Nat) (c : Char) (u : Str)
    (h : fenceSplit? (c :: u) = none) :
    extractCodeGo (fuel + 1) (c :: u) = extractCodeGo fuel u := by
  conv_lhs => unfold extractCodeGo
  rw [h]

theorem ecGo_clean (t : Str) :
    ∀ (fuel : Nat) (u : Str), '`' ∉ t →
      extractCodeGo (t.length + fuel) (t ++ u) = extractCodeGo fuel u := by
  induction t with
  | nil => intro fuel u _; simp
  | cons c t' ih =>
    intro fuel u hbt
    have hc : c ≠ '`' := fun h => hbt (by rw [h]; exact List.mem_cons_self _ _)
    have hbt' : '`' ∉ t' := fun h => hbt (List.mem_cons_of_mem _ h)
    have harith : (c :: t').length + fuel = (t'.length + fuel) + 1 := by
      simp [Nat.succ_add]
    rw [harith, List.cons_append]
    rw [ecGo_emit _ c _ (fenceSplit?_first_ne c _ hc)]
    exact ih fuel u hbt'

theorem ecGo_fence (fuel : Nat) (t m rest : Str)
    (h : matchCodeBlock t = some (m, rest)) :
    extractCodeGo (fuel + 1) ('`' :: '`' :: '`' :: t) =
      stripCloseFence (stripOpenFence m) ++ '\n' :: '\n' ::
        extractCodeGo fuel rest := by
  conv_lhs => unfold extractCodeGo
  rw [show fenceSplit? ('`' :: '`' :: '`' :: t) = some t from fenceSplit?_fence t]
  simp only [h]

theorem matchCodeBlock_block (l c u : Str)
    (hdg : ¬ (strOf "mermaid").isPrefixOf l = true)
    (hlws : ∀ ch ∈ l, isWs ch = false) (hcbt : '`' ∉ c) :
    matchCodeBlock (blockBody l c u) =
      some (fence3 ++ (l ++ '\n' :: (c ++ '\n' :: fence3)), u) := by
  have hnm : ¬ (strOf "mermaid").isPrefixOf (blockBody l c u) = true := by
    rw [blockBody_shape]
    exact not_prefix_append_newline _ l _ (by decide) hdg
  have hrun : nonWsRun (blockBody l c u) = l := by
    rw [blockBody_shape]
    exact nonWsRun_label l _ hlws
  have hvbt : '`' ∉ ('\n' :: (c ++ ['\n']) : Str) := by
    intro hm
    rcases List.mem_cons.mp hm with h3 | h4
    · exact absurd h3 (by decide)
    · rcases List.mem_append.mp h4 with h5 | h6
      · exact hcbt h5
      · rcases List.mem_cons.mp h6 with h7 | h8
        · exact absurd h7 (by decide)
        · simp at h8
  have hlfs : lazyFenceSplit ((blockBody l c u).drop l.length) =
      some (('\n' :: (c ++ ['\n'])) ++ fence3, u) := by
    have hdrop : (blockBody l c u).drop l.length =
        '\n' :: (c ++ '\n' :: (fence3 ++ u)) := by
      rw [blockBody_shape]
      exact List.drop_left l _
    rw [hdrop]
    rw [show ('\n' :: (c ++ '\n' :: (fence3 ++ u)) : Str) =
      ('\n' :: (c ++ ['\n'])) ++ (fence3 ++ u) from by simp]
    exact lazyFenceSplit_clean_append _ u hvbt
  unfold matchCodeBlock
  rw [if_neg hnm, hrun]
  simp only [greedyTrySplit_of_lazyFenceSplit (blockBody l c u) l.length _ u hlfs]
  have htake : (blockBody l c u).take l.length = l := by
    rw [blockBody_shape]
    exact List.take_left l _
  rw [htake]
  simp

theorem wsNl_nonws (c0 : Char) (z : Str) (h : isWs c0 = false) :
    wsNl (c0 :: z) = none := by
  have h1 : c0 ≠ '\n' := by
    intro he
    rw [he] at h
    exact absurd h (by decide)
  unfold wsNl
  rw [if_neg h1, if_neg (by simp [h])]

theorem stripOpenFence_block (l c z : Str)
    (hlws : ∀ ch ∈ l, isWs ch = false) (hcne : c ≠ [])
    (hch : isWs (c.headD ' ') = false) :
    stripOpenFence (fence3 ++ (l ++ '\n' :: (c ++ '\n' :: z))) =
      c ++ '\n' :: z := by
  obtain ⟨c0, c', hc0⟩ : ∃ c0 c', c = c0 :: c' := by
    cases c with
    | nil => exact absurd rfl hcne
    | cons a b => exact ⟨a, b, rfl⟩
  have hc0ws : isWs c0 = false := by
    rw [hc0] at hch
    exact hch
  have hwz : wsNl ('\n' :: (c ++ '\n' :: z)) = some (c ++ '\n' :: z) := by
    unfold wsNl
    rw [if_pos rfl, hc0, List.cons_append, wsNl_nonws c0 _ hc0ws]
    rfl
  rw [show fence3 ++ (l ++ '\n' :: (c ++ '\n' :: z)) =
    '`' :: ('`' :: '`' :: (l ++ '\n' :: (c ++ '\n' :: z))) from rfl]
  conv_lhs => unfold stripOpenFence
  simp only [show fenceSplit? ('`' :: '`' :: '`' :: (l ++ '\n' :: (c ++ '\n' :: z))) =
    some (l ++ '\n' :: (c ++ '\n' :: z)) from fenceSplit?_fence _]
  rw [nonWsRun_label l _ hlws, List.drop_left]
  simp only [hwz]

theorem dropWhile_reverse_eq (c : Str) (hcne : c ≠ [])
    (hcl : isWs (c.getLastD ' ') = false) :
    c.reverse.dropWhile isWs = c.reverse := by
  obtain ⟨a, r', har⟩ : ∃ a r', c.reverse = a :: r' := by
    cases hcr : c.reverse with
    | nil => exact absurd (List.reverse_eq_nil_iff.mp hcr) hcne
    | cons a b => exact ⟨a, b, rfl⟩
  have hga : c.getLastD ' ' = a := by
    rw [List.getLastD_eq_getLast?, ← List.head?_reverse, har]
    rfl
  have ha : isWs a = false := hga ▸ hcl
  rw [har, List.dropWhile_cons, if_neg (by simp [ha])]

theorem stripCloseFence_block (c : Str) (hcne : c ≠ [])
    (hcl : isWs (c.getLastD ' ') = false) :
    stripCloseFence (c ++ '\n' :: fence3) = c := by
  have hrev : (c ++ '\n' :: fence3).reverse =
      '`' :: '`' :: '`' :: ('\n' :: c.reverse) := by
    simp [fence3]
  unfold stripCloseFence
  rw [hrev]
  simp only [show fenceSplit? ('`' :: '`' :: '`' :: ('\n' :: c.reverse)) =
    some ('\n' :: c.reverse) from fenceSplit?_fence _]
  rw [List.dropWhile_cons, if_pos (by decide),
    dropWhile_reverse_eq c hcne hcl, List.reverse_reverse]

theorem codeContents_cons_text (t : Str) (rest : List Piece) :
    codeContents (Piece.text t :: rest) = codeContents rest := rfl

theorem codeContents_cons_diag (l c : Str) (rest : List Piece)
    (h : (strOf "mermaid").isPrefixOf l = true) :
    codeContents (Piece.block l c :: rest) = codeContents rest := by
  simp [codeContents, List.isPrefixOf_iff_prefix.mp h]

theorem codeContents_cons_nondiag (l c : Str) (rest : List Piece)
    (h : ¬ (strOf "mermaid").isPrefixOf l = true) :
    codeContents (Piece.block l c :: rest) = c :: codeContents rest := by
  have h' : ¬ strOf "mermaid" <+: l :=
    fun hc => h (List.isPrefixOf_iff_prefix.mpr hc)
  simp [codeContents, h']

theorem filter_cons_text (t : Str) (rest : List Piece) :
    (Piece.text t :: rest).filter (fun p => !isDiagram p) =
      Piece.text t :: rest.filter (fun p => !isDiagram p) := by
  simp [isDiagram]

theorem filter_cons_diag (l c : Str) (rest : List Piece)
    (h : (strOf "mermaid").isPrefixOf l = true) :
    (Piece.block l c :: rest).filter (fun p => !isDiagram p) =
      rest.filter (fun p => !isDiagram p) := by
  simp [isDiagram, h]

theorem filter_cons_nondiag (l c : Str) (rest : List Piece)
    (h : ¬ (strOf "mermaid").isPrefixOf l = true) :
    (Piece.block l c :: rest).filter (fun p => !isDiagram p) =
      Piece.block l c :: rest.filter (fun p => !isDiagram p) := by
  simp [isDiagram, h]

theorem codeContents_filter (ps : List Piece) :
    codeContents (ps.filter (fun p => !isDiagram p)) = codeContents ps := by
  induction ps with
  | nil => rfl
  | cons p rest ih =>
    cases p with
    | text t =>
      rw [filter_cons_text, codeContents_cons_text, codeContents_cons_text]
      exact ih
    | block l c =>
      by_cases hdg : (strOf "mermaid").isPrefixOf l = true
      · rw [filter_cons_diag l c rest hdg, codeContents_cons_diag l c rest hdg]
        exact ih
      · rw [filter_cons_nondiag l c rest hdg,
          codeContents_cons_nondiag l c _ hdg,
          codeContents_cons_nondiag l c rest hdg, ih]

theorem filter_wf (ps : List Piece) (hall : ∀ p ∈ ps, pieceWF p) :
    ∀ p ∈ ps.filter (fun p => !isDiagram p), pieceWF p :=
  fun p hp => hall p (List.mem_of_mem_filter hp)

theorem filter_nondiag (ps : List Piece) :
    ∀ p ∈ ps.filter (fun p => !isDiagram p), isDiagram p = false := by
  intro p hp
  have := List.of_mem_filter hp
  simpa using this

theorem extractCodeGo_render :
    ∀ (qs : List Piece), (∀ p ∈ qs, pieceWF p) →
      (∀ p ∈ qs, isDiagram p = false) →
    ∀ fuel, (render qs).length ≤ fuel →
      extractCodeGo fuel (render qs) = joinNN (codeContents qs) := by
  intro qs
  induction qs with
  | nil =>
    intro _ _ fuel _
    rw [render_nil, ecGo_nil]
    rfl
  | cons p rest ih =>
    intro hall hnd fuel hfuel
    have hall' : ∀ q ∈ rest, pieceWF q :=
      fun q hq => hall q (List.mem_cons_of_mem _ hq)
    have hnd' : ∀ q ∈ rest, isDiagram q = false :=
      fun q hq => hnd q (List.mem_cons_of_mem _ hq)
    cases p with
    | text t =>
      rcases hall (Piece.text t) (List.mem_cons_self _ _) with ⟨htne, hbt, _⟩
      rw [render_cons_text] at hfuel ⊢
      have hlen : t.length + (render rest).length ≤ fuel := by
        simpa using hfuel
      obtain ⟨f, hf, hfr⟩ : ∃ f, fuel = t.length + f ∧ (render rest).length ≤ f :=
        ⟨fuel - t.length, by omega, by omega⟩
      rw [hf, ecGo_clean t f (render rest) hbt, ih hall' hnd' f hfr]
      rfl
    | block l c =>
      have hd : isDiagram (Piece.block l c) = false :=
        hnd _ (List.mem_cons_self _ _)
      have hdg : ¬ (strOf "mermaid").isPrefixOf l = true := by
        rw [Bool.not_eq_true]
        exact hd
      rcases hall (Piece.block l c) (List.mem_cons_self _ _) with
        ⟨hlne, hlch, hcne, hcbt, hch, hcl⟩
      rw [render_cons_block] at hfuel ⊢
      have hblen : (blockBody l c (render rest)).length =
          l.length + c.length + (render rest).length + 5 := by
        rw [blockBody_shape]
        simp [fence3]
        omega
      have hfuel' : l.length + c.length + (render rest).length + 8 ≤ fuel := by
        rw [List.length_append, hblen] at hfuel
        have h3 : fence3.length = 3 := rfl
        omega
      obtain ⟨f, hf, hfr⟩ : ∃ f, fuel = f + 1 ∧ (render rest).length ≤ f :=
        ⟨fuel - 1, by omega, by omega⟩
      rw [hf, show fence3 ++ blockBody l c (render rest) =
        '`' :: '`' :: '`' :: blockBody l c (render rest) from rfl]
      rw [ecGo_fence f _ _ _ (matchCodeBlock_block l c (render rest) hdg
        (fun ch hm => (hlch ch hm).1) hcbt)]
      rw [show stripOpenFence (fence3 ++ (l ++ '\n' :: (c ++ '\n' :: fence3))) =
        c ++ '\n' :: fence3 from
          stripOpenFence_block l c fence3 (fun ch hm => (hlch ch hm).1) hcne hch]
      rw [stripCloseFence_block c hcne hcl, ih hall' hnd' f hfr,
        codeContents_cons_nondiag l c rest hdg]
      rfl

theorem joinNN_cons (c : Str) (cs : List Str) :
    joinNN (c :: cs) = c ++ '\n' :: '\n' :: joinNN cs := rfl

theorem intercalate_nil_str (sep : Str) :
    List.intercalate sep ([] : List Str) = [] := by
  simp [List.intercalate]

theorem intercalate_single (sep c : Str) : List.intercalate sep [c] = c := by
  simp [List.intercalate]

theorem intercalate_cons₂ (sep c d : Str) (cs : List Str) :
    List.intercalate sep (c :: d :: cs) =
      (c ++ sep) ++ List.intercalate sep (d :: cs) := by
  simp [List.intercalate, List.intersperse]

theorem dropWhile_rev_joinNN :
    ∀ cs : List Str,
      (∀ c ∈ cs, c ≠ [] ∧ isWs (c.getLastD ' ') = false) →
      ((joinNN cs).reverse.dropWhile isWs).reverse =
        List.intercalate (strOf "\n\n") cs := by
  intro cs
  induction cs with
  | nil =>
    intro _
    simp [joinNN, intercalate_nil_str]
  | cons c cs' ih =>
    intro h
    rcases h c (List.mem_cons_self _ _) with ⟨hcne, hcl⟩
    have h' : ∀ d ∈ cs', d ≠ [] ∧ isWs (d.getLastD ' ') = false :=
      fun d hd => h d (List.mem_cons_of_mem _ hd)
    cases cs' with
    | nil =>
      have hrev : (joinNN [c]).reverse = '\n' :: '\n' :: c.reverse := by
        rw [joinNN_cons]
        simp [joinNN]
      rw [hrev, List.dropWhile_cons, if_pos (by decide),
        List.dropWhile_cons, if_pos (by decide),
        dropWhile_reverse_eq c hcne hcl, List.reverse_reverse,
        intercalate_single]
    | cons d cs'' =>
      have hIH := ih h'
      have hrev : (joinNN (c :: d :: cs'')).reverse =
          (joinNN (d :: cs'')).reverse ++ ('\n' :: '\n' :: c.reverse) := by
        rw [joinNN_cons]
        simp
      have hdw : (joinNN (d :: cs'')).reverse.dropWhile isWs =
          (List.intercalate (strOf "\n\n") (d :: cs'')).reverse := by
        have hcongr := congrArg List.reverse hIH
        rwa [List.reverse_reverse] at hcongr
      have hdne : List.intercalate (strOf "\n\n") (d :: cs'') ≠ [] := by
        cases cs'' with
        | nil =>
          rw [intercalate_single]
          exact (h' d (List.mem_cons_self _ _)).1
        | cons e cs''' =>
          rw [intercalate_cons₂]
          intro hc
          rcases List.append_eq_nil.mp hc with ⟨h1, _⟩
          rcases List.append_eq_nil.mp h1 with ⟨hd0, _⟩
          exact (h' d (List.mem_cons_self _ _)).1 hd0
      have hne : ¬ ((List.intercalate (strOf "\n\n") (d :: cs'')).reverse.isEmpty
          = true) := by
        simp [List.isEmpty_iff, List.reverse_eq_nil_iff, hdne]
      rw [hrev, List.dropWhile_append, hdw, if_neg hne,
        intercalate_cons₂, show strOf "\n\n" = ['\n', '\n'] from rfl]
      simp

theorem trim_joinNN (cs : List Str)
    (h : ∀ c ∈ cs, c ≠ [] ∧ isWs (c.headD ' ') = false ∧
      isWs (c.getLastD ' ') = false) :
    trimStr (joinNN cs) = List.intercalate (strOf "\n\n") cs := by
  cases cs with
  | nil => rfl
  | cons c cs' =>
    rcases h c (List.mem_cons_self _ _) with ⟨hcne, hch, _⟩
    obtain ⟨c0, c', hc0⟩ : ∃ c0 c', c = c0 :: c' := by
      cases c with
      | nil => exact absurd rfl hcne
      | cons a b => exact ⟨a, b, rfl⟩
    have hc0ws : isWs c0 = false := by
      rw [hc0] at hch
      exact hch
    have hdrop : (joinNN (c :: cs')).dropWhile isWs = joinNN (c :: cs') := by
      rw [joinNN_cons, hc0, List.cons_append, List.dropWhile_cons,
        if_neg (by simp [hc0ws])]
    unfold trimStr
    rw [hdrop]
    exact dropWhile_rev_joinNN (c :: cs')
      (fun d hd => ⟨(h d hd).1, (h d hd).2.2⟩)

theorem codeContents_prop :
    ∀ ps : List Piece, (∀ p ∈ ps, pieceWF p) →
      ∀ c ∈ codeContents ps, c ≠ [] ∧ isWs (c.headD ' ') = false ∧
        isWs (c.getLastD ' ') = false := by
  intro ps
  induction ps with
  | nil =>
    intro _ c hc
    simp [codeContents] at hc
  | cons p rest ih =>
    intro hall c hc
    have hall' : ∀ q ∈ rest, pieceWF q :=
      fun q hq => hall q (List.mem_cons_of_mem _ hq)
    cases p with
    | text t =>
      rw [codeContents_cons_text] at hc
      exact ih hall' c hc
    | block l c2 =>
      by_cases hdg : (strOf "mermaid").isPrefixOf l = true
      · rw [codeContents_cons_diag l c2 rest hdg] at hc
        exact ih hall' c hc
      · rw [codeContents_cons_nondiag l c2 rest hdg] at hc
        rcases List.mem_cons.mp hc with hceq | hmem
        · subst hceq
          rcases hall (Piece.block l c) (List.mem_cons_self _ _) with
            ⟨_, _, h3, _, h5, h6⟩
          exact ⟨h3, h5, h6⟩
        · exact ih hall' c hmem

/-- C2: for every structured completion whose fenced blocks are well formed
and carry pairwise-distinct labels, `extractCodeBlocks` returns exactly the
inner contents of the non-diagram (non-mermaid) blocks in their original
order, fences removed and blocks joined by one blank line, and
`extractTextOnly` of the same completion returns the trimmed prose, which
contains none of the blocks' contents verbatim. -/
theorem extract_roundtrip (ps : List Piece) (hwf : piecesWF ps)
    (_hdistinct : (labelsOf ps).Pairwise (· ≠ ·))
    (hprose : trimStr (concatTexts ps) ≠ [])
    (hsep : ∀ c ∈ allContents ps, hasSub (trimStr (concatTexts ps)) c = false) :
    extractCodeBlocks (render ps) =
      List.intercalate (strOf "\n\n") (codeContents ps) ∧
    extractTextOnly (render ps) = trimStr (concatTexts ps) ∧
    ∀ c ∈ allContents ps, hasSub (extractTextOnly (render ps)) c = false := by
  obtain ⟨hall, hadj⟩ := hwf
  have htext := extractTextOnly_render ps hall hprose
  refine ⟨?_, htext, ?_⟩
  · unfold extractCodeBlocks
    rw [removeMermaid_render ps ⟨hall, hadj⟩]
    rw [extractCodeGo_render (ps.filter (fun p => !isDiagram p))
      (filter_wf ps hall) (filter_nondiag ps) _ (Nat.le_refl _)]
    rw [codeContents_filter]
    exact trim_joinNN _ (codeContents_prop ps hall)
  · intro c hc
    rw [htext]
    exact hsep c hc

/-- Witness for `extract_roundtrip` on `c2pieces`: three blocks labelled
js, mermaid and css; the code extraction equals the js and css contents
joined by a blank line, the text extraction equals the trimmed prose, and
no block content survives into the text. -/
theorem extract_roundtrip_witness :
    extractCodeBlocks (render c2pieces) =
      List.intercalate (strOf "\n\n") (codeContents c2pieces) ∧
    extractTextOnly (render c2pieces) = trimStr (concatTexts c2pieces) ∧
    ∀ c ∈ allContents c2pieces,
      hasSub (extractTextOnly (render c2pieces)) c = false :=
  extract_roundtrip c2pieces
    ⟨by
      intro p hp
      fin_cases hp
      · exact ⟨by decide, by decide, by decide⟩
      · exact ⟨by decide, by decide, by decide, by decide, by decide, by decide⟩
      · exact ⟨by decide, by decide, by decide⟩
      · exact ⟨by decide, by decide, by decide, by decide, by decide, by decide⟩
      · exact ⟨by decide, by decide, by decide⟩
      · exact ⟨by decide, by decide, by decide, by decide, by decide, by decide⟩
      · exact ⟨by decide, by decide, by decide⟩,
     by decide⟩
    (by decide) (by decide) (by decide)

/-- C9: counterexample — two generation requests R1 then R2 in the same
session, with R1 resolving after R2, leave the preview showing R1's payload,
not R2's: `handleSendMessage` associates no identifier with a response and
never discards a late result. -/
theorem chat_stale_overwrite_counterexample :
    (runChat chatInit c9trace).previewCode = some (strOf "<h1>one</h1>") ∧
    (runChat chatInit c9trace).previewCode ≠ some (strOf "<h2>two</h2>") := by
  refine ⟨rfl, ?_⟩
  decide

/-- C9 (amended): the panel is last-writer-wins in resolution order — after
any event sequence ending in a resolution carrying a non-empty code payload,
the preview shows that payload, whether or not the resolving request had
been superseded by a newer one. -/
theorem chat_last_writer_wins (s : ChatState) (es : List ChatEvent)
    (rid : Nat) (text code : Str) (hcode : code ≠ []) :
    (runChat s (es ++ [ChatEvent.resolve rid text code])).previewCode =
      some code := by
  unfold runChat
  rw [List.foldl_append]
  show (chatStep (List.foldl chatStep s es)
    (ChatEvent.resolve rid text code)).previewCode = some code
  unfold chatStep
  simp [hcode]

/-- Witness for `chat_last_writer_wins`: the two-request interleaving of the
counterexample, whose late first response wins. -/
theorem chat_last_writer_wins_witness :
    (strOf "<h1>one</h1>" : Str) ≠ [] ∧
    (runChat chatInit
      ([ChatEvent.send 1 (strOf "first app"),
        ChatEvent.send 2 (strOf "second app"),
        ChatEvent.resolve 2 (strOf "here is app two")
          (strOf "<h2>two</h2>")] ++
       [ChatEvent.resolve 1 (strOf "here is app one")
          (strOf "<h1>one</h1>")])).previewCode =
      some (strOf "<h1>one</h1>") :=
  ⟨by decide,
   chat_last_writer_wins chatInit
     [ChatEvent.send 1 (strOf "first app"),
      ChatEvent.send 2 (strOf "second app"),
      ChatEvent.resolve 2 (strOf "here is app two") (strOf "<h2>two</h2>")]
     1 (strOf "here is app one") (strOf "<h1>one</h1>") (by decide)⟩

theorem parseCodeIntoFiles_det (st : PanelState) (code : Str)
    (files : List (Str × Json)) (hdet : detect code = some files) :
    (parseCodeIntoFiles st code).fileSystem = createDirectoryStructure files ∧
    (parseCodeIntoFiles st code).parseCount = st.parseCount + 1 ∧
    (parseCodeIntoFiles st code).intervalActive = st.intervalActive ∧
    (parseCodeIntoFiles st code).isTyping = st.isTyping ∧
    (parseCodeIntoFiles st code).codeBuffer = st.codeBuffer ∧
    (parseCodeIntoFiles st code).intervalSet = st.intervalSet := by
  simp only [parseCodeIntoFiles, hdet]
  split <;> simp

theorem startTypingEffect_fields (st : PanelState) (fullCode : Str)
    (files : List (Str × Json)) (st1 : PanelState)
    (hdet : detect fullCode = some files)
    (hstart : startTypingEffect st fullCode = some st1) :
    st1.intervalActive = true ∧ st1.intervalSet = true ∧
    st1.isTyping = st.isTyping ∧ st1.codeBuffer = fullCode ∧
    st1.parseCount = st.parseCount := by
  simp only [startTypingEffect, hdet] at hstart
  split at hstart <;>
  · rw [Option.some.injEq] at hstart
    subst hstart
    simp


theorem stepPanel_inv (buffer : Str) (files : List (Str × Json)) (n0 : Nat)
    (hdet : detect buffer = some files) (st : PanelState) (e : PanelEvent)
    (h : TypingLive buffer n0 st ∨ TypingSettled buffer files n0 st) :
    TypingLive buffer n0 (stepPanel st e) ∨
      TypingSettled buffer files n0 (stepPanel st e) := by
  cases e with
  | pauseToggle =>
    rcases h with ⟨h1, h2, h3, h4, h5⟩ | ⟨h1, h2, h3, h4, h5⟩
    · exact Or.inl ⟨h1, h2, h3, h4, h5⟩
    · exact Or.inr ⟨h1, h2, h3, h4, h5⟩
  | skipEv =>
    rcases h with ⟨h1, h2, h3, h4, h5⟩ | ⟨h1, h2, h3, h4, h5⟩
    · right
      obtain ⟨pf, pc, pa, pt, pb, ps⟩ :=
        parseCodeIntoFiles_det { st with intervalActive := false }
          st.codeBuffer files (by rw [h4]; exact hdet)
      show TypingSettled buffer files n0
        (if st.isTyping = true then skipTyping st else st)
      rw [if_pos h2]
      unfold skipTyping
      rw [if_pos h3]
      refine ⟨?_, rfl, ?_, ?_, ?_⟩
      · show (parseCodeIntoFiles { st with intervalActive := false }
          st.codeBuffer).intervalActive = false
        rw [pa]
      · show (parseCodeIntoFiles { st with intervalActive := false }
          st.codeBuffer).codeBuffer = buffer
        rw [pb]
        exact h4
      · show (parseCodeIntoFiles { st with intervalActive := false }
          st.codeBuffer).parseCount = n0 + 1
        rw [pc]
        simp [h5]
      · show (parseCodeIntoFiles { st with intervalActive := false }
          st.codeBuffer).fileSystem = createDirectoryStructure files
        exact pf
    · right
      show TypingSettled buffer files n0
        (if st.isTyping = true then skipTyping st else st)
      rw [if_neg (by simp [h2])]
      exact ⟨h1, h2, h3, h4, h5⟩
  | tickEv =>
    rcases h with ⟨h1, h2, h3, h4, h5⟩ | ⟨h1, h2, h3, h4, h5⟩
    · show TypingLive buffer n0 (tick st) ∨ TypingSettled buffer files n0 (tick st)
      unfold tick
      rw [if_neg (by simp [h1])]
      by_cases hp : st.capturedPaused = true
      · rw [if_pos hp]
        exact Or.inl ⟨h1, h2, h3, h4, h5⟩
      · rw [if_neg hp]
        by_cases hz : min typingSpeed (st.codeBuffer.length - st.typingPos) = 0
        · rw [if_pos hz]
          right
          obtain ⟨pf, pc, pa, pt, pb, ps⟩ :=
            parseCodeIntoFiles_det
              { st with intervalActive := false, isTyping := false }
              st.codeBuffer files (by rw [h4]; exact hdet)
          refine ⟨?_, ?_, ?_, ?_, pf⟩
          · rw [pa]
          · rw [pt]
          · rw [pb]; exact h4
          · rw [pc]; simp [h5]
        · rw [if_neg hz]
          by_cases hend : st.codeBuffer.length ≤
              st.typingPos + min typingSpeed (st.codeBuffer.length - st.typingPos)
          · rw [if_pos hend]
            right
            obtain ⟨pf, pc, pa, pt, pb, ps⟩ :=
              parseCodeIntoFiles_det
                { st with
                    typingPos := st.typingPos +
                      min typingSpeed (st.codeBuffer.length - st.typingPos),
                    fileSystem := (partialWrites st.capturedSelected
                      (st.codeBuffer.take (st.typingPos +
                        min typingSpeed (st.codeBuffer.length - st.typingPos)))).1,
                    currentFileContent := (partialWrites st.capturedSelected
                      (st.codeBuffer.take (st.typingPos +
                        min typingSpeed (st.codeBuffer.length -
                          st.typingPos)))).2.getD st.currentFileContent,
                    intervalActive := false, isTyping := false }
                st.codeBuffer files (by rw [h4]; exact hdet)
            refine ⟨?_, ?_, ?_, ?_, pf⟩
            · rw [pa]
            · rw [pt]
            · rw [pb]; exact h4
            · rw [pc]; simp [h5]
          · rw [if_neg hend]
            exact Or.inl ⟨h1, h2, h3, h4, h5⟩
    · show TypingLive buffer n0 (tick st) ∨ TypingSettled buffer files n0 (tick st)
      unfold tick
      rw [if_pos h1]
      exact Or.inr ⟨h1, h2, h3, h4, h5⟩

theorem runPanel_inv (buffer : Str) (files : List (Str × Json)) (n0 : Nat)
    (hdet : detect buffer = some files) :
    ∀ (evs : List PanelEvent) (st : PanelState),
      TypingLive buffer n0 st ∨ TypingSettled buffer files n0 st →
      TypingLive buffer n0 (runPanel st evs) ∨
        TypingSettled buffer files n0 (runPanel st evs) := by
  intro evs
  induction evs with
  | nil => intro st h; exact h
  | cons e evs' ih =>
    intro st h
    exact ih (stepPanel st e) (stepPanel_inv buffer files n0 hdet st e h)

/-- C6: once the typing simulation settles — whether by revealing the full
buffer tick by tick or by an explicit user skip — structure detection has
been re-run on the complete buffer exactly once (the ghost `parseCount`
rises from the start value by one), and the materialized file tree equals
the tree the non-animated path (a direct `parseCodeIntoFiles` of the same
payload) produces. -/
theorem typing_settles_once (st0 st1 : PanelState) (buffer : Str)
    (files : List (Str × Json)) (evs : List PanelEvent)
    (hdet : detect buffer = some files)
    (htyp : st0.isTyping = true)
    (hstart : startTypingEffect st0 buffer = some st1)
    (hdone : (runPanel st1 evs).intervalActive = false) :
    (runPanel st1 evs).parseCount = st0.parseCount + 1 ∧
    (runPanel st1 evs).fileSystem =
      (parseCodeIntoFiles st0 buffer).fileSystem := by
  obtain ⟨f1, f2, f3, f4, f5⟩ :=
    startTypingEffect_fields st0 buffer files st1 hdet hstart
  have hinv := runPanel_inv buffer files st0.parseCount hdet evs st1
    (Or.inl ⟨f1, f3.trans htyp, f2, f4, f5⟩)
  rcases hinv with ⟨hact, _⟩ | ⟨_, _, _, hcnt, hfs⟩
  · rw [hdone] at hact
    exact absurd hact (by decide)
  · obtain ⟨pf, _, _, _, _, _⟩ := parseCodeIntoFiles_det st0 buffer files hdet
    exact ⟨hcnt, by rw [hfs, pf]⟩

/-- Witness for `typing_settles_once`: the payload `c6buffer` typed out in
two ticks from a fresh typing panel settles with one full parse and the
direct-parse tree. -/
theorem typing_settles_once_witness :
    detect c6buffer = some c6files ∧
    c6start.isTyping = true ∧
    startTypingEffect c6start c6buffer =
      some ((startTypingEffect c6start c6buffer).getD c6start) ∧
    (runPanel ((startTypingEffect c6start c6buffer).getD c6start)
      c6evs).intervalActive = false ∧
    ((runPanel ((startTypingEffect c6start c6buffer).getD c6start)
        c6evs).parseCount = c6start.parseCount + 1 ∧
     (runPanel ((startTypingEffect c6start c6buffer).getD c6start)
        c6evs).fileSystem = (parseCodeIntoFiles c6start c6buffer).fileSystem) :=
  ⟨rfl, rfl, rfl, rfl,
   typing_settles_once c6start
     ((startTypingEffect c6start c6buffer).getD c6start) c6buffer c6files
     c6evs rfl rfl rfl rfl⟩
